/-
Verification of the mako dependency-tree core (matthewmueller/tree).

The repository's own code lives in src/lib/tree.js, src/lib/file.js and the
historical variants in src/unnamed/part_00*.  The generic graph store
(`graph.js`), the topological sort (`graph-toposort`), the `Vinyl` file base
class and the JSON/Date/Buffer built-ins are external dependencies that are
not part of the repository's sources; where their behaviour decides a claim
they are modelled from the specification (spec.md sections 4.1 and 6), as
marked on each definition.

Vertex identifiers are strings.  Graphs are association lists of vertices
(insertion order preserved, as graph.js iterates vertices in insertion
order) together with a list of directed edges.
-/
import Mathlib

abbrev V := String

/-- Error kinds of the graph core, from spec section 7 (the error taxonomy).
`typeError` stands for the JavaScript `TypeError` raised when the code
dereferences `undefined` (e.g. `file.path` after a failed lookup). -/
inductive GErr where
  | duplicateVertex
  | vertexNotFound
  | duplicateEdge
  | edgeNotFound
  | vertexHasEdges
  | cycleDetected
  | typeError
  deriving Repr, DecidableEq

/-- Modelled from the spec: the GraphStore of spec section 4.1 (the external
`graph.js` library, which is not part of this repository's sources).  A
directed graph keyed by opaque vertex identifiers holding one value per
vertex.  Vertices are kept in insertion order. -/
structure Graph (α : Type) where
  vertices : List (V × α)
  edges : List (V × V)
  deriving Repr, DecidableEq

namespace Graph

variable {α : Type}

def empty : Graph α := ⟨[], []⟩

def vertexIds (g : Graph α) : List V := g.vertices.map Prod.fst

/-- `hasVertex(id)` membership query (spec section 4.1). -/
def hasVertex (g : Graph α) (k : V) : Bool := g.vertexIds.contains k

/-- `getVertexValue(id)`: absent ids give an absent result, not an error
(spec section 4.1). -/
def vertexValue (g : Graph α) (k : V) : Option α := g.vertices.lookup k

def hasEdge (g : Graph α) (a b : V) : Bool := g.edges.contains (a, b)

/-- `addVertex(id, value)` fails with `DuplicateVertex` if `id` exists
(spec section 4.1; graph.js `addNewVertex`). -/
def addNewVertex (g : Graph α) (k : V) (v : α) : Except GErr (Graph α) :=
  if g.hasVertex k then .error .duplicateVertex
  else .ok { g with vertices := g.vertices ++ [(k, v)] }

/-- graph.js `ensureVertex`: add the vertex only when it is not yet present
(used by the part_002 variant; spec section 3 invariant 1). -/
def ensureVertex (g : Graph α) (k : V) (v : α) : Graph α :=
  if g.hasVertex k then g
  else { g with vertices := g.vertices ++ [(k, v)] }

def incidentEdges (g : Graph α) (k : V) : List (V × V) :=
  g.edges.filter (fun e => e.1 == k || e.2 == k)

/-- `removeVertex(id)` fails with `VertexHasEdges` if any incident edge
exists (spec section 4.1). -/
def removeVertex (g : Graph α) (k : V) : Except GErr (Graph α) :=
  if g.hasVertex k then
    if (g.incidentEdges k).isEmpty then
      .ok { g with vertices := g.vertices.filter (fun p => p.1 != k) }
    else .error .vertexHasEdges
  else .error .vertexNotFound

/-- `destroyVertex(id)`: force variant, removes the vertex and all incident
edges unconditionally (spec section 4.1). -/
def destroyVertex (g : Graph α) (k : V) : Graph α :=
  { vertices := g.vertices.filter (fun p => p.1 != k),
    edges := g.edges.filter (fun e => e.1 != k && e.2 != k) }

/-- `addEdge(from, to)` fails with `VertexNotFound` if either endpoint is
absent and with `DuplicateEdge` if the edge already exists (spec 4.1). -/
def addEdge (g : Graph α) (a b : V) : Except GErr (Graph α) :=
  if g.hasVertex a && g.hasVertex b then
    if g.hasEdge a b then .error .duplicateEdge
    else .ok { g with edges := g.edges ++ [(a, b)] }
  else .error .vertexNotFound

/-- graph.js `createEdge`: add the edge, implicitly creating missing
endpoint vertices (the part_002 second variant calls this; a vertex created
this way carries no file value, hence the `Option` payload there). -/
def createEdge (g : Graph α) (a b : V) (va vb : α) : Graph α :=
  let g1 := (g.ensureVertex a va).ensureVertex b vb
  if g1.hasEdge a b then g1 else { g1 with edges := g1.edges ++ [(a, b)] }

/-- `removeEdge(from, to)` fails with `EdgeNotFound` if absent (spec 4.1). -/
def removeEdge (g : Graph α) (a b : V) : Except GErr (Graph α) :=
  if g.hasEdge a b then .ok { g with edges := g.edges.erase (a, b) }
  else .error .edgeNotFound

/-- Direct successors along edge direction (graph.js `verticesFrom`). -/
def succIds (g : Graph α) (k : V) : List V :=
  (g.edges.filter (fun e => e.1 == k)).map Prod.snd

/-- Direct predecessors along edge direction (graph.js `verticesTo`). -/
def predIds (g : Graph α) (k : V) : List V :=
  (g.edges.filter (fun e => e.2 == k)).map Prod.fst

def outDegree (g : Graph α) (k : V) : Nat := (g.succIds k).length

def inDegree (g : Graph α) (k : V) : Nat := (g.predIds k).length

/-- graph.js `sinks`: vertices with no outgoing edge, in insertion order. -/
def sinks (g : Graph α) : List (V × α) :=
  g.vertices.filter (fun p => g.outDegree p.1 == 0)

/-- Well-formedness maintained by every operation of the store: vertex ids
are unique (spec section 3 invariant 1), the edge list holds no duplicate
ordered pair (spec section 3: only one edge per ordered pair) and both
endpoints of every edge exist (spec section 3 invariant 2). -/
def WF (g : Graph α) : Prop :=
  g.vertexIds.Nodup ∧ g.edges.Nodup ∧
    ∀ e ∈ g.edges, e.1 ∈ g.vertexIds ∧ e.2 ∈ g.vertexIds

/-- The one-step edge relation of the graph. -/
def Edge (g : Graph α) (a b : V) : Prop := (a, b) ∈ g.edges

/-- `b` is reachable from `a` along one or more edges. -/
def Reaches (g : Graph α) : V → V → Prop := Relation.TransGen g.Edge

/-- The graph contains a (directed) cycle. -/
def HasCycle (g : Graph α) : Prop := ∃ v, g.Reaches v v

end Graph

/-! ## Transitive reachability (graph.js `verticesWithPathFrom/To`, `hasPath`)

Modelled from the spec (section 4.1): the full transitive closure in each
direction, each vertex visited once so that the computation is cycle-safe.
We compute it as a monotone saturation of the direct-successor map, which
reaches a fixed point within `|targets| + 1` rounds. -/

/-- One saturation round: add every direct successor of the current set. -/
def satStep (succ : V → Finset V) (S : Finset V) : Finset V :=
  S ∪ S.biUnion succ

/-- Iterated saturation rounds. -/
def saturate (succ : V → Finset V) (fuel : Nat) (S : Finset V) : Finset V :=
  (satStep succ)^[fuel] S

theorem subset_satStep (succ : V → Finset V) (S : Finset V) :
    S ⊆ satStep succ S := Finset.subset_union_left

theorem satStep_subset (succ : V → Finset V) (U S : Finset V)
    (hU : ∀ x, succ x ⊆ U) (hS : S ⊆ U) : satStep succ S ⊆ U := by
  intro b hb
  rcases Finset.mem_union.1 hb with h | h
  · exact hS h
  · rcases Finset.mem_biUnion.1 h with ⟨c, _, hc⟩
    exact hU c hc

theorem saturate_subset (succ : V → Finset V) (U S : Finset V)
    (hU : ∀ x, succ x ⊆ U) (hS : S ⊆ U) (n : Nat) :
    saturate succ n S ⊆ U := by
  induction n with
  | zero => exact hS
  | succ n ih =>
      rw [saturate, Function.iterate_succ_apply']
      exact satStep_subset succ U _ hU ih

theorem subset_saturate (succ : V → Finset V) (S : Finset V) (n : Nat) :
    S ⊆ saturate succ n S := by
  induction n with
  | zero => exact fun _ h => h
  | succ n ih =>
      rw [saturate, Function.iterate_succ_apply']
      exact fun b hb => subset_satStep succ _ (ih hb)

theorem saturate_card_grow (succ : V → Finset V) (S : Finset V) (n : Nat)
    (h : ∀ i < n, satStep succ (saturate succ i S) ≠ saturate succ i S) :
    S.card + n ≤ (saturate succ n S).card := by
  induction n with
  | zero => simp [saturate]
  | succ n ih =>
      have hne := h n (Nat.lt_succ_self n)
      have hsub : saturate succ n S ⊆ satStep succ (saturate succ n S) :=
        subset_satStep succ _
      have hlt : (saturate succ n S).card < (satStep succ (saturate succ n S)).card :=
        Finset.card_lt_card (Finset.ssubset_iff_subset_ne.2 ⟨hsub, Ne.symm hne⟩)
      have ihh := ih (fun i hi => h i (Nat.lt_succ_of_lt hi))
      have heq : saturate succ (n + 1) S = satStep succ (saturate succ n S) := by
        rw [saturate, Function.iterate_succ_apply']
        rfl
      rw [heq]
      omega

theorem saturate_stable (succ : V → Finset V) (S : Finset V) (i : Nat)
    (h : satStep succ (saturate succ i S) = saturate succ i S) (j : Nat) (hij : i ≤ j) :
    saturate succ j S = saturate succ i S := by
  obtain ⟨k, rfl⟩ := Nat.exists_eq_add_of_le hij
  clear hij
  induction k with
  | zero => rfl
  | succ k ih =>
      have heq : saturate succ (i + (k + 1)) S = satStep succ (saturate succ (i + k) S) := by
        rw [show i + (k + 1) = (i + k) + 1 from rfl, saturate, Function.iterate_succ_apply']
        rfl
      rw [heq, ih, h]

/-- After `U.card + 1` rounds the saturation is a fixed point of the step,
provided every successor set lies inside the universe `U`. -/
theorem saturate_fixed (succ : V → Finset V) (U S : Finset V)
    (hU : ∀ x, succ x ⊆ U) (hS : S ⊆ U) :
    satStep succ (saturate succ (U.card + 1) S) = saturate succ (U.card + 1) S := by
  by_contra hne
  have hall : ∀ i < U.card + 2, satStep succ (saturate succ i S) ≠ saturate succ i S := by
    intro i hi hfix
    apply hne
    have hstab := saturate_stable succ S i hfix (U.card + 1) (by omega)
    rw [hstab]
    exact hfix
  have hgrow := saturate_card_grow succ S (U.card + 2) hall
  have hsub := saturate_subset succ U S hU hS (U.card + 2)
  have := Finset.card_le_card hsub
  omega

/-- Every element of the saturation of the direct successors of `a` is
reachable from `a` (soundness of the closure computation). -/
theorem saturate_sound (succ : V → Finset V) (a : V) (n : Nat) :
    ∀ b ∈ saturate succ n (succ a), Relation.TransGen (fun x y => y ∈ succ x) a b := by
  have key : ∀ (S : Finset V),
      (∀ b ∈ S, Relation.TransGen (fun x y => y ∈ succ x) a b) →
      ∀ b ∈ satStep succ S, Relation.TransGen (fun x y => y ∈ succ x) a b := by
    intro S hS b hb
    rcases Finset.mem_union.1 hb with h | h
    · exact hS b h
    · rcases Finset.mem_biUnion.1 h with ⟨c, hc, hcb⟩
      exact Relation.TransGen.tail (hS c hc) hcb
  induction n with
  | zero => exact fun b hb => Relation.TransGen.single hb
  | succ n ih =>
      intro b hb
      rw [saturate, Function.iterate_succ_apply'] at hb
      exact key _ ih b hb

/-- Everything reachable from `a` appears in the saturated closure
(completeness, using the fixed-point property). -/
theorem saturate_complete (succ : V → Finset V) (U : Finset V)
    (hU : ∀ x, succ x ⊆ U) (a b : V)
    (hr : Relation.TransGen (fun x y => y ∈ succ x) a b) :
    b ∈ saturate succ (U.card + 1) (succ a) := by
  have hfix := saturate_fixed succ U (succ a) hU (hU a)
  induction hr with
  | single h => exact subset_saturate succ (succ a) (U.card + 1) h
  | tail _ hbc ih =>
      rename_i b c _
      have : c ∈ satStep succ (saturate succ (U.card + 1) (succ a)) :=
        Finset.mem_union.2 (Or.inr (Finset.mem_biUnion.2 ⟨b, ih, hbc⟩))
      rwa [hfix] at this

/-- The saturated closure is exactly reachability by one or more steps. -/
theorem saturate_mem_iff (succ : V → Finset V) (U : Finset V)
    (hU : ∀ x, succ x ⊆ U) (a b : V) :
    b ∈ saturate succ (U.card + 1) (succ a) ↔
      Relation.TransGen (fun x y => y ∈ succ x) a b :=
  ⟨fun h => saturate_sound succ a _ b h, saturate_complete succ U hU a b⟩

namespace Graph

variable {α : Type}

def succSet (g : Graph α) (k : V) : Finset V := (g.succIds k).toFinset

def predSet (g : Graph α) (k : V) : Finset V := (g.predIds k).toFinset

def edgeTargets (g : Graph α) : Finset V := (g.edges.map Prod.snd).toFinset

def edgeSources (g : Graph α) : Finset V := (g.edges.map Prod.fst).toFinset

/-- graph.js `verticesWithPathFrom`: all vertices reachable from `k` by one
or more edges (modelled from the spec, section 4.1). -/
def reachFrom (g : Graph α) (k : V) : Finset V :=
  saturate g.succSet (g.edgeTargets.card + 1) (g.succSet k)

/-- graph.js `verticesWithPathTo`: all vertices that reach `k` by one or
more edges (modelled from the spec, section 4.1). -/
def reachTo (g : Graph α) (k : V) : Finset V :=
  saturate g.predSet (g.edgeSources.card + 1) (g.predSet k)

/-- graph.js `hasPath(from, to)` (modelled from the spec, section 4.1). -/
def hasPath (g : Graph α) (a b : V) : Bool := decide (b ∈ g.reachFrom a)

theorem mem_succSet {g : Graph α} {x y : V} : y ∈ g.succSet x ↔ g.Edge x y := by
  simp only [succSet, succIds, List.mem_toFinset, List.mem_map, List.mem_filter, Edge]
  constructor
  · rintro ⟨⟨u, v⟩, ⟨he, heq⟩, rfl⟩
    have hux : u = x := by simpa using heq
    simpa [hux] using he
  · intro h
    exact ⟨(x, y), ⟨h, by simp⟩, rfl⟩

theorem mem_predSet {g : Graph α} {x y : V} : y ∈ g.predSet x ↔ g.Edge y x := by
  simp only [predSet, predIds, List.mem_toFinset, List.mem_map, List.mem_filter, Edge]
  constructor
  · rintro ⟨⟨u, v⟩, ⟨he, heq⟩, rfl⟩
    have hvx : v = x := by simpa using heq
    simpa [hvx] using he
  · intro h
    exact ⟨(y, x), ⟨h, by simp⟩, rfl⟩

theorem succSet_subset_targets (g : Graph α) (x : V) :
    g.succSet x ⊆ g.edgeTargets := by
  intro y hy
  rcases List.mem_toFinset.1 hy with h
  simp only [succIds, List.mem_map, List.mem_filter] at h
  rcases h with ⟨e, ⟨he, _⟩, rfl⟩
  exact List.mem_toFinset.2 (List.mem_map.2 ⟨e, he, rfl⟩)

theorem predSet_subset_sources (g : Graph α) (x : V) :
    g.predSet x ⊆ g.edgeSources := by
  intro y hy
  rcases List.mem_toFinset.1 hy with h
  simp only [predIds, List.mem_map, List.mem_filter] at h
  rcases h with ⟨e, ⟨he, _⟩, rfl⟩
  exact List.mem_toFinset.2 (List.mem_map.2 ⟨e, he, rfl⟩)

/-- `reachFrom` computes exactly forward reachability. -/
theorem mem_reachFrom {g : Graph α} {a b : V} :
    b ∈ g.reachFrom a ↔ g.Reaches a b := by
  rw [reachFrom, saturate_mem_iff g.succSet g.edgeTargets (succSet_subset_targets g) a b]
  constructor
  · intro h
    exact Relation.TransGen.mono (fun x y hy => mem_succSet.1 hy) h
  · intro h
    exact Relation.TransGen.mono (fun x y hy => mem_succSet.2 hy) h

/-- `reachTo` computes exactly backward reachability. -/
theorem mem_reachTo {g : Graph α} {a b : V} :
    b ∈ g.reachTo a ↔ g.Reaches b a := by
  rw [reachTo, saturate_mem_iff g.predSet g.edgeSources (predSet_subset_sources g) a b]
  constructor
  · intro h
    have h2 : Relation.TransGen (Function.swap g.Edge) a b :=
      Relation.TransGen.mono (fun x y hy => mem_predSet.1 hy) h
    exact Relation.transGen_swap.1 h2
  · intro h
    have h2 : Relation.TransGen (Function.swap g.Edge) a b :=
      Relation.transGen_swap.2 h
    exact Relation.TransGen.mono (fun x y hy => mem_predSet.2 hy) h2

/-- Decidable cycle test: some vertex reaches itself. -/
def hasCycleB (g : Graph α) : Bool :=
  g.vertexIds.any (fun v => decide (v ∈ g.reachFrom v))

theorem hasCycleB_iff {g : Graph α} (hwf : g.WF) :
    g.hasCycleB = true ↔ g.HasCycle := by
  constructor
  · intro h
    rcases List.any_eq_true.1 h with ⟨v, _, hv⟩
    exact ⟨v, mem_reachFrom.1 (of_decide_eq_true hv)⟩
  · rintro ⟨v, hv⟩
    have hmem : v ∈ g.vertexIds := by
      have hv2 : Relation.TransGen g.Edge v v := hv
      rcases Relation.TransGen.head'_iff.1 hv2 with ⟨c, hc, _⟩
      exact (hwf.2.2 _ hc).1
    exact List.any_eq_true.2 ⟨v, hmem, decide_eq_true (mem_reachFrom.2 hv)⟩

end Graph

/-! ## Topological sort (the external `graph-toposort` package)

Modelled from the spec (section 4.2): Kahn's algorithm, repeatedly removing
a zero-in-degree vertex; a cycle makes this impossible and must surface as
an error rather than silently dropping vertices. -/

namespace Graph

variable {α : Type}

/-- `v` currently has no incoming edge from a remaining vertex. -/
def zeroIn (g : Graph α) (rem : List V) (v : V) : Bool :=
  rem.all (fun u => !(g.edges.contains (u, v)))

/-- Kahn's algorithm main loop over the remaining vertex ids. -/
def kahnAux (g : Graph α) : Nat → List V → Option (List V)
  | 0, rem => if rem.isEmpty then some [] else none
  | fuel + 1, rem =>
    if rem.isEmpty then some []
    else
      match rem.find? (g.zeroIn rem) with
      | some v => (kahnAux g fuel (rem.erase v)).map (fun l => v :: l)
      | none => none

/-- Topological ordering of all vertex ids; `CycleDetected` on a cycle. -/
def toposortG (g : Graph α) : Except GErr (List V) :=
  match kahnAux g g.vertices.length g.vertexIds with
  | some l => .ok l
  | none => .error .cycleDetected

theorem kahnAux_perm (g : Graph α) (fuel : Nat) :
    ∀ rem l, kahnAux g fuel rem = some l → l.Perm rem := by
  induction fuel with
  | zero =>
      intro rem l h
      simp only [kahnAux] at h
      split_ifs at h with hrem
      obtain rfl : ([] : List V) = l := Option.some.inj h
      rw [List.isEmpty_iff.1 hrem]
  | succ fuel ih =>
      intro rem l h
      simp only [kahnAux] at h
      split_ifs at h with hrem
      · obtain rfl : ([] : List V) = l := Option.some.inj h
        rw [List.isEmpty_iff.1 hrem]
      · rcases hfind : rem.find? (g.zeroIn rem) with _ | v
        · rw [hfind] at h
          exact absurd h (by simp)
        · rw [hfind] at h
          have h2 : (kahnAux g fuel (rem.erase v)).map (fun l => v :: l) = some l := h
          rcases Option.map_eq_some'.1 h2 with ⟨l2, hrec, rfl⟩
          have hv : v ∈ rem := List.mem_of_find?_eq_some hfind
          exact ((ih _ l2 hrec).cons v).trans (List.perm_cons_erase hv).symm

end Graph

namespace Graph

variable {α : Type}

/-- Ordering property of the Kahn loop: an edge's source is emitted before
its target whenever both endpoints are among the remaining vertices. -/
theorem kahnAux_order (g : Graph α) (fuel : Nat) :
    ∀ rem l, rem.Nodup → kahnAux g fuel rem = some l →
      ∀ a b, (a, b) ∈ g.edges → a ∈ rem → b ∈ rem →
        l.indexOf a < l.indexOf b := by
  induction fuel with
  | zero =>
      intro rem l _ h a b _ ha _
      simp only [kahnAux] at h
      split_ifs at h with hrem
      exact absurd ha (by simp [List.isEmpty_iff.1 hrem])
  | succ fuel ih =>
      intro rem l hnd h a b hab ha hb
      simp only [kahnAux] at h
      split_ifs at h with hrem
      · exact absurd ha (by simp [List.isEmpty_iff.1 hrem])
      · rcases hfind : rem.find? (g.zeroIn rem) with _ | v
        · rw [hfind] at h
          exact absurd h (by simp)
        · rw [hfind] at h
          have h2 : (kahnAux g fuel (rem.erase v)).map (fun l => v :: l) = some l := h
          rcases Option.map_eq_some'.1 h2 with ⟨l2, hrec, rfl⟩
          have hzero : g.zeroIn rem v = true := List.find?_some hfind
          have hbv : b ≠ v := by
            intro hbv
            subst hbv
            have hnc := List.all_eq_true.1 hzero a ha
            simp only [Bool.not_eq_true'] at hnc
            exact absurd hab (by simpa using hnc)
          have hbl2 : b ∈ rem.erase v := (List.mem_erase_of_ne hbv).2 hb
          by_cases hav : a = v
          · subst hav
            rw [List.indexOf_cons_self]
            have : b ∈ l2 := (kahnAux_perm g fuel _ l2 hrec).symm.subset hbl2
            rw [List.indexOf_cons_ne _ (Ne.symm hbv)]
            exact Nat.succ_pos _
          · have hal2 : a ∈ rem.erase v := (List.mem_erase_of_ne hav).2 ha
            have := ih (rem.erase v) l2 (hnd.erase v) hrec a b hab hal2 hbl2
            rw [List.indexOf_cons_ne _ (Ne.symm hav), List.indexOf_cons_ne _ (Ne.symm hbv)]
            exact Nat.succ_lt_succ this

end Graph

namespace Graph

variable {α : Type}

/-- If every remaining vertex still has an incoming edge from a remaining
vertex, the graph has a cycle (pigeonhole on iterated predecessors). -/
theorem stuck_has_cycle (g : Graph α) (rem : List V) (hne : rem ≠ [])
    (hstuck : ∀ v ∈ rem, ∃ u ∈ rem, (u, v) ∈ g.edges) : g.HasCycle := by
  classical
  have hstuck2 : ∀ v : V, ∃ u, v ∈ rem → u ∈ rem ∧ (u, v) ∈ g.edges := by
    intro v
    by_cases hv : v ∈ rem
    · rcases hstuck v hv with ⟨u, hu, he⟩
      exact ⟨u, fun _ => ⟨hu, he⟩⟩
    · exact ⟨v, fun h => absurd h hv⟩
  choose f hf using hstuck2
  have hiter : ∀ n v, v ∈ rem → f^[n] v ∈ rem := by
    intro n
    induction n with
    | zero => intro v hv; exact hv
    | succ n ihn =>
        intro v hv
        rw [Function.iterate_succ_apply]
        exact ihn (f v) (hf v hv).1
  have hreach : ∀ n v, v ∈ rem → g.Reaches (f^[n + 1] v) v := by
    intro n
    induction n with
    | zero =>
        intro v hv
        exact Relation.TransGen.single (hf v hv).2
    | succ n ihn =>
        intro v hv
        have h1 : f^[n + 1 + 1] v = f^[n + 1] (f v) := by
          rw [Function.iterate_succ_apply]
        rw [h1]
        exact Relation.TransGen.tail (ihn (f v) (hf v hv).1) (hf v hv).2
  obtain ⟨v0, hv0⟩ : ∃ v, v ∈ rem := by
    cases rem with
    | nil => exact absurd rfl hne
    | cons x xs => exact ⟨x, List.mem_cons_self x xs⟩
  obtain ⟨i, hi, j, hj, hij, heq⟩ :=
    Finset.exists_ne_map_eq_of_card_lt_of_maps_to
      (s := Finset.range (rem.toFinset.card + 1)) (t := rem.toFinset)
      (by simp) (fun n _ => List.mem_toFinset.2 (hiter n v0 hv0))
  rcases Nat.lt_or_ge i j with hlt | hge
  · refine ⟨f^[i] v0, ?_⟩
    have h2 := Function.iterate_add_apply f (j - i - 1 + 1) i v0
    have hj2 : j - i - 1 + 1 + i = j := by omega
    rw [hj2] at h2
    have h3 := hreach (j - i - 1) (f^[i] v0) (hiter i v0 hv0)
    rw [← h2, ← heq] at h3
    exact h3
  · have hlt2 : j < i := by omega
    refine ⟨f^[j] v0, ?_⟩
    have h2 := Function.iterate_add_apply f (i - j - 1 + 1) j v0
    have hi2 : i - j - 1 + 1 + j = i := by omega
    rw [hi2] at h2
    have h3 := hreach (i - j - 1) (f^[j] v0) (hiter j v0 hv0)
    rw [← h2, heq] at h3
    exact h3

/-- Progress of the Kahn loop on acyclic graphs. -/
theorem kahnAux_isSome (g : Graph α) (fuel : Nat) :
    ∀ rem, rem.length ≤ fuel → ¬ g.HasCycle → (kahnAux g fuel rem).isSome := by
  induction fuel with
  | zero =>
      intro rem hlen _
      have hrem : rem = [] := List.length_eq_zero.1 (Nat.le_zero.1 hlen)
      subst hrem
      rfl
  | succ fuel ih =>
      intro rem hlen hnc
      simp only [kahnAux]
      by_cases hrem : rem.isEmpty
      · simp [hrem]
      · rcases hfind : rem.find? (g.zeroIn rem) with _ | v
        · exfalso
          apply hnc
          apply stuck_has_cycle g rem (fun hnil => hrem (by simp [hnil]))
          intro v hv
          have hz := List.find?_eq_none.1 hfind v hv
          simp only [zeroIn, List.all_eq_true, not_forall] at hz
          rcases hz with ⟨u, hu, hcon⟩
          refine ⟨u, hu, ?_⟩
          simpa using hcon
        · have hv : v ∈ rem := List.mem_of_find?_eq_some hfind
          have hlen2 : (rem.erase v).length ≤ fuel := by
            rw [List.length_erase_of_mem hv]
            have hpos : 0 < rem.length :=
              List.length_pos.2 (fun hnil => hrem (by simp [hnil]))
            omega
          rw [if_neg hrem]
          show ((kahnAux g fuel (rem.erase v)).map (fun l => v :: l)).isSome
          rcases hok : kahnAux g fuel (rem.erase v) with _ | l2
          · have hsome := ih (rem.erase v) hlen2 hnc
            rw [hok] at hsome
            exact absurd hsome (by simp)
          · simp

end Graph

namespace Graph

variable {α : Type}

theorem toposortG_perm {g : Graph α} {l : List V} (h : g.toposortG = .ok l) :
    l.Perm g.vertexIds := by
  simp only [toposortG] at h
  rcases hk : kahnAux g g.vertices.length g.vertexIds with _ | l2
  · rw [hk] at h
    exact absurd h (by simp)
  · rw [hk] at h
    have h2 : (Except.ok l2 : Except GErr (List V)) = .ok l := h
    obtain rfl : l2 = l := by injection h2
    exact kahnAux_perm g _ _ _ hk

theorem toposortG_order {g : Graph α} {l : List V} (hnd : g.vertexIds.Nodup)
    (h : g.toposortG = .ok l) :
    ∀ a b, (a, b) ∈ g.edges → a ∈ g.vertexIds → b ∈ g.vertexIds →
      l.indexOf a < l.indexOf b := by
  simp only [toposortG] at h
  rcases hk : kahnAux g g.vertices.length g.vertexIds with _ | l2
  · rw [hk] at h
    exact absurd h (by simp)
  · rw [hk] at h
    have h2 : (Except.ok l2 : Except GErr (List V)) = .ok l := h
    obtain rfl : l2 = l := by injection h2
    exact kahnAux_order g _ _ _ hnd hk

theorem toposortG_ok_of_acyclic {g : Graph α} (hnc : ¬ g.HasCycle) :
    ∃ l, g.toposortG = .ok l := by
  have hlen : g.vertexIds.length ≤ g.vertices.length := by
    simp [vertexIds]
  have := kahnAux_isSome g g.vertices.length g.vertexIds hlen hnc
  rcases hk : kahnAux g g.vertices.length g.vertexIds with _ | l2
  · rw [hk] at this
    exact absurd this (by simp)
  · exact ⟨l2, by simp [toposortG, hk]⟩

theorem toposortG_reaches_lt {g : Graph α} {l : List V} (hwf : g.WF)
    (h : g.toposortG = .ok l) {a b : V} (hr : g.Reaches a b) :
    l.indexOf a < l.indexOf b := by
  have hord := toposortG_order hwf.1 h
  have hr2 : Relation.TransGen g.Edge a b := hr
  clear hr
  induction hr2 with
  | single he =>
      rename_i c
      exact hord a c he (hwf.2.2 _ he).1 (hwf.2.2 _ he).2
  | tail hr3 he ih =>
      rename_i c d
      exact Nat.lt_trans ih (hord c d he (hwf.2.2 _ he).1 (hwf.2.2 _ he).2)

theorem toposortG_err_of_cycle {g : Graph α} (hwf : g.WF) (hc : g.HasCycle) :
    g.toposortG = .error .cycleDetected := by
  rcases hres : g.toposortG with e | l
  · simp only [toposortG] at hres
    rcases hk : kahnAux g g.vertices.length g.vertexIds with _ | l2
    · rw [hk] at hres
      have hres2 : (Except.error .cycleDetected : Except GErr (List V)) = .error e := hres
      obtain rfl : GErr.cycleDetected = e := by injection hres2
      rfl
    · rw [hk] at hres
      exact absurd hres (by simp)
  · exfalso
    rcases hc with ⟨v, hv⟩
    exact Nat.lt_irrefl _ (toposortG_reaches_lt hwf hres hv)

end Graph

/-! ## Serialized values, buffers and dates

Modelled from the spec (sections 6 and 9): per-file values form a closed set
of kinds (null, boolean, number, string, byte-buffer, timestamp, array,
nested mapping).  `JSON.stringify` encodes a buffer as the tagged object
`\x7b type: "Buffer", data: [...] \x7d` (Node's `Buffer.toJSON`) and a date as its
ISO-8601 string; the `reviver` of `Tree.fromString` (src/lib/tree.js,
lines 422-432) turns any `Buffer`-tagged object back into a buffer and any
string matching the ISO-8601 timestamp pattern (`regex-iso-date`) back into
a date.  The JSON text layer itself is lossless and is modelled
structurally; dates are represented by their printed components. -/

/-- A JSON document tree (the output of `JSON.stringify`). -/
inductive Json where
  | null
  | bool (b : Bool)
  | num (n : Int)
  | str (s : String)
  | arr (xs : List Json)
  | obj (fields : List (String × Json))

/-- A runtime value stored in a file field. -/
inductive Value where
  | null
  | bool (b : Bool)
  | num (n : Int)
  | str (s : String)
  | buf (data : List Nat)
  | date (y mo d h mi s ms : Nat)
  | arr (xs : List Value)
  | obj (fields : List (String × Value))

/-- JavaScript object property access (first binding wins; parsed JSON
objects bind each key once). -/
def getField : List (String × Value) → String → Option Value
  | [], _ => none
  | (k2, v) :: fs, k => if k2 = k then some v else getField fs k

def dval (c : Char) : Nat := c.toNat - 48

/-- `Date#toISOString`: `YYYY-MM-DDTHH:MM:SS.mmmZ`. -/
def isoOf (y mo d h mi s ms : Nat) : String :=
  String.mk [Nat.digitChar (y / 1000), Nat.digitChar (y / 100 % 10),
    Nat.digitChar (y / 10 % 10), Nat.digitChar (y % 10), '-',
    Nat.digitChar (mo / 10), Nat.digitChar (mo % 10), '-',
    Nat.digitChar (d / 10), Nat.digitChar (d % 10), 'T',
    Nat.digitChar (h / 10), Nat.digitChar (h % 10), ':',
    Nat.digitChar (mi / 10), Nat.digitChar (mi % 10), ':',
    Nat.digitChar (s / 10), Nat.digitChar (s % 10), '.',
    Nat.digitChar (ms / 100), Nat.digitChar (ms / 10 % 10), Nat.digitChar (ms % 10), 'Z']

/-- The ISO-8601 timestamp pattern test of `regex-iso-date`, as the shape
produced by `Date#toISOString`; a match yields the date's components
(`new Date(value)` in the reviver). -/
def parseIsoDate (str : String) : Option Value :=
  match str.data with
  | [y1, y2, y3, y4, '-', m1, m2, '-', d1, d2, 'T',
     h1, h2, ':', n1, n2, ':', s1, s2, '.', x1, x2, x3, 'Z'] =>
      if ([y1, y2, y3, y4, m1, m2, d1, d2, h1, h2, n1, n2, s1, s2,
           x1, x2, x3].all Char.isDigit) then
        some (.date (dval y1 * 1000 + dval y2 * 100 + dval y3 * 10 + dval y4)
          (dval m1 * 10 + dval m2) (dval d1 * 10 + dval d2)
          (dval h1 * 10 + dval h2) (dval n1 * 10 + dval n2)
          (dval s1 * 10 + dval s2) (dval x1 * 100 + dval x2 * 10 + dval x3))
      else none
  | _ => none

mutual

/-- Structural `JSON.stringify` of one value. -/
def encode : Value → Json
  | .null => .null
  | .bool b => .bool b
  | .num n => .num n
  | .str s => .str s
  | .buf data =>
      .obj [("type", .str "Buffer"),
            ("data", .arr (data.map (fun b => Json.num (Int.ofNat b))))]
  | .date y mo d h mi s ms => .str (isoOf y mo d h mi s ms)
  | .arr xs => .arr (encodeList xs)
  | .obj fs => .obj (encodeObj fs)

def encodeList : List Value → List Json
  | [] => []
  | x :: xs => encode x :: encodeList xs

def encodeObj : List (String × Value) → List (String × Json)
  | [] => []
  | (k, v) :: fs => (k, encode v) :: encodeObj fs

end

/-- Does the (revived) object carry the `Buffer` tag checked by the
reviver (`value.type === "Buffer"`)? -/
def isBufferTag : Option Value → Bool
  | some (.str t) => t == "Buffer"
  | _ => false

/-- `new Buffer(value.data)` of the reviver: collect the byte values. -/
def extractBytes (fs : List (String × Value)) : List Nat :=
  match getField fs "data" with
  | some (.arr vs) =>
      vs.filterMap (fun v => match v with | .num n => some n.toNat | _ => none)
  | _ => []

mutual

/-- `JSON.parse` with the reviver of src/lib/tree.js lines 422-432: inner
values are revived first; then a `Buffer`-tagged object becomes a buffer
and an ISO-8601-looking string becomes a date. -/
def revive : Json → Value
  | .null => .null
  | .bool b => .bool b
  | .num n => .num n
  | .str s =>
      match parseIsoDate s with
      | some v => v
      | none => .str s
  | .arr xs => .arr (reviveList xs)
  | .obj fs =>
      let rfs := reviveObj fs
      match getField rfs "type" with
      | some (.str t) => if t = "Buffer" then .buf (extractBytes rfs) else .obj rfs
      | _ => .obj rfs

def reviveList : List Json → List Value
  | [] => []
  | x :: xs => revive x :: reviveList xs

def reviveObj : List (String × Json) → List (String × Value)
  | [] => []
  | (k, v) :: fs => (k, revive v) :: reviveObj fs

end

mutual

/-- Values that survive the stringify/parse round trip unchanged: no string
shaped like an ISO timestamp, no mapping carrying `type = "Buffer"`, and
dates with printable component widths. -/
def cleanB : Value → Bool
  | .null => true
  | .bool _ => true
  | .num _ => true
  | .str s => (parseIsoDate s).isNone
  | .buf _ => true
  | .date y mo d h mi s ms =>
      decide (y < 10000) && decide (mo < 100) && decide (d < 100) &&
        decide (h < 100) && decide (mi < 100) && decide (s < 100) &&
        decide (ms < 1000)
  | .arr xs => cleanListB xs
  | .obj fs => !(isBufferTag (getField fs "type")) && cleanObjB fs

def cleanListB : List Value → Bool
  | [] => true
  | x :: xs => cleanB x && cleanListB xs

def cleanObjB : List (String × Value) → Bool
  | [] => true
  | (_, v) :: fs => cleanB v && cleanObjB fs

end

theorem digitChar_isDigit : ∀ k, k < 10 → (Nat.digitChar k).isDigit = true := by
  decide

theorem dval_digitChar : ∀ k, k < 10 → dval (Nat.digitChar k) = k := by
  decide

/-- Printing a date and reviving the printed string restores the date. -/
theorem parseIsoDate_isoOf (y mo d h mi s ms : Nat) (hy : y < 10000)
    (hmo : mo < 100) (hd : d < 100) (hh : h < 100) (hmi : mi < 100)
    (hs : s < 100) (hms : ms < 1000) :
    parseIsoDate (isoOf y mo d h mi s ms) = some (.date y mo d h mi s ms) := by
  have d1 : y / 1000 < 10 := by omega
  have d2 : y / 100 % 10 < 10 := by omega
  have d3 : y / 10 % 10 < 10 := by omega
  have d4 : y % 10 < 10 := by omega
  have e1 : mo / 10 < 10 := by omega
  have e2 : mo % 10 < 10 := by omega
  have f1 : d / 10 < 10 := by omega
  have f2 : d % 10 < 10 := by omega
  have g1 : h / 10 < 10 := by omega
  have g2 : h % 10 < 10 := by omega
  have i1 : mi / 10 < 10 := by omega
  have i2 : mi % 10 < 10 := by omega
  have j1 : s / 10 < 10 := by omega
  have j2 : s % 10 < 10 := by omega
  have k1 : ms / 100 < 10 := by omega
  have k2 : ms / 10 % 10 < 10 := by omega
  have k3 : ms % 10 < 10 := by omega
  simp only [parseIsoDate, isoOf]
  rw [if_pos]
  · congr 1
    congr 1 <;>
      [skip; rw [dval_digitChar _ e1, dval_digitChar _ e2];
       rw [dval_digitChar _ f1, dval_digitChar _ f2];
       rw [dval_digitChar _ g1, dval_digitChar _ g2];
       rw [dval_digitChar _ i1, dval_digitChar _ i2];
       rw [dval_digitChar _ j1, dval_digitChar _ j2];
       rw [dval_digitChar _ k1, dval_digitChar _ k2, dval_digitChar _ k3]] <;>
      try omega
    rw [dval_digitChar _ d1, dval_digitChar _ d2, dval_digitChar _ d3,
      dval_digitChar _ d4]
    omega
  · simp only [List.all_cons, List.all_nil, Bool.and_eq_true]
    refine ⟨?_, ?_, ?_, ?_, ?_, ?_, ?_, ?_, ?_, ?_, ?_, ?_, ?_, ?_, ?_, ?_, ?_,
      trivial⟩ <;> apply digitChar_isDigit <;> omega

theorem parseIsoDate_buffer : parseIsoDate "Buffer" = none := rfl

theorem reviveList_nums (data : List Nat) :
    reviveList (data.map (fun b => Json.num (Int.ofNat b))) =
      data.map (fun b => Value.num (Int.ofNat b)) := by
  induction data with
  | nil => rfl
  | cons b bs ih =>
      simp only [List.map_cons, reviveList, revive]
      rw [ih]

theorem extract_nums (data : List Nat) :
    (data.map (fun b => Value.num (Int.ofNat b))).filterMap
      (fun v => match v with | .num n => some n.toNat | _ => none) = data := by
  induction data with
  | nil => rfl
  | cons b bs ih =>
      simp only [List.map_cons, List.filterMap_cons, Int.toNat_ofNat]
      rw [ih]
      simp

mutual

/-- Clean values survive the serialize/revive round trip unchanged. -/
theorem revive_encode : ∀ v : Value, cleanB v = true → revive (encode v) = v
  | .null, _ => rfl
  | .bool _, _ => rfl
  | .num _, _ => rfl
  | .str s, hcl => by
      simp only [cleanB, Option.isNone_iff_eq_none] at hcl
      simp [encode, revive, hcl]
  | .buf data, _ => by
      simp only [encode, revive, reviveObj, reviveList, parseIsoDate_buffer]
      simp only [reviveList_nums, getField, extractBytes]
      simp only [reduceIte]
      exact congrArg Value.buf (extract_nums data)
  | .date y mo d h mi s ms, hcl => by
      simp only [cleanB, Bool.and_eq_true, decide_eq_true_eq] at hcl
      obtain ⟨⟨⟨⟨⟨⟨hy, hmo⟩, hd⟩, hh⟩, hmi⟩, hs⟩, hms⟩ := hcl
      simp [encode, revive, parseIsoDate_isoOf y mo d h mi s ms hy hmo hd hh hmi hs hms]
  | .arr xs, hcl => by
      simp only [cleanB] at hcl
      simp only [encode, revive, reviveList_encodeList xs hcl]
  | .obj fs, hcl => by
      simp only [cleanB, Bool.and_eq_true, Bool.not_eq_true'] at hcl
      have hrfs := reviveObj_encodeObj fs hcl.2
      simp only [encode, revive, hrfs]
      rcases hg : getField fs "type" with _ | v
      · rfl
      · cases v with
        | str t =>
            have h1 := hcl.1
            rw [hg] at h1
            simp only [isBufferTag] at h1
            have ht : t ≠ "Buffer" := by
              intro hEq
              rw [hEq] at h1
              simp at h1
            show (if t = "Buffer" then Value.buf (extractBytes fs)
              else Value.obj fs) = Value.obj fs
            rw [if_neg ht]
        | null => rfl
        | bool b => rfl
        | num n => rfl
        | buf data => rfl
        | date y mo d h mi s ms => rfl
        | arr xs => rfl
        | obj fs2 => rfl

theorem reviveList_encodeList :
    ∀ xs : List Value, cleanListB xs = true → reviveList (encodeList xs) = xs
  | [], _ => rfl
  | x :: xs, hcl => by
      simp only [cleanListB, Bool.and_eq_true] at hcl
      simp only [encodeList, reviveList, revive_encode x hcl.1,
        reviveList_encodeList xs hcl.2]

theorem reviveObj_encodeObj :
    ∀ fs : List (String × Value), cleanObjB fs = true →
      reviveObj (encodeObj fs) = fs
  | [], _ => rfl
  | (k, v) :: fs, hcl => by
      simp only [cleanObjB, Bool.and_eq_true] at hcl
      simp only [encodeObj, reviveObj, revive_encode v hcl.1,
        reviveObj_encodeObj fs hcl.2]

end

/-! ## The current implementation: src/lib/tree.js and src/lib/file.js

The per-vertex payload is the Vinyl-based `File` of src/lib/file.js.  Vinyl
itself is external; modelled from the spec (section 3): a file is its `id`
(a generated uuid, or the id passed in `params`), its path `history`
(`history[0]` is the immutable original), its `contents` buffer and an open
bag of remaining own fields (`isEntry`, `analyzed`, plugin extensions,
...).  The `tree` back-reference is not part of the value (spec section 9:
lookup-only association, excluded from clone/serialize). -/
structure LibFile where
  id : String
  history : List String
  contents : Value
  fields : List (String × Value)

/-- src/lib/tree.js `Tree`: a project root and the graph. -/
structure LibTree where
  root : String
  graph : Graph LibFile

namespace LibTree

/-- `Tree` constructor. -/
def mk0 (root : String) : LibTree := ⟨root, Graph.empty⟩

/-- `Tree#hasFile` (src/lib/tree.js lines 41-43). -/
def hasFile (t : LibTree) (fid : V) : Bool := t.graph.hasVertex fid

/-- `Tree#getFile` (src/lib/tree.js lines 71-73). -/
def getFile (t : LibTree) (fid : V) : Option LibFile := t.graph.vertexValue fid

/-- `Tree#addFile` (src/lib/tree.js lines 52-63): build the `File` (a fresh
uuid when `params` carries no id — the uuid draw is the `fresh` argument),
then `graph.addNewVertex(file.id, file)`.  There is no existence check:
contrast `part_003` lines 47-54, which checks `hasFile` first. -/
def addFile (t : LibTree) (path : String) (pid : Option String)
    (fresh : String) : (Except GErr LibFile) × LibTree :=
  let fid := pid.getD fresh
  let file : LibFile := ⟨fid, [path], .null, []⟩
  match t.graph.addNewVertex fid file with
  | .ok g => (.ok file, { t with graph := g })
  | .error e => (.error e, t)

/-- `Tree#size` (src/lib/tree.js lines 273-275). -/
def size (t : LibTree) : Nat := t.graph.vertices.length

/-- `Tree#getFiles()` without options: all vertex values in graph order
(src/lib/tree.js line 111). -/
def getFiles (t : LibTree) : List LibFile := t.graph.vertices.map Prod.snd

/-- `Tree#getFiles({topological: true})` (src/lib/tree.js lines 104-115):
`toposort(this.graph).map(id => this.getFile(id))`. -/
def getFilesTopo (t : LibTree) : Except GErr (List LibFile) :=
  match Graph.toposortG t.graph with
  | .ok ids => .ok (ids.filterMap t.getFile)
  | .error e => .error e

/-- `Tree#removeFile` (src/lib/tree.js lines 126-135).  When the id is
absent, `getFile` yields `undefined` and the debug call dereferences
`file.path`, raising a `TypeError` before the graph is touched. -/
def removeFile (t : LibTree) (fid : V) (force : Bool) :
    (Except GErr Unit) × LibTree :=
  match t.getFile fid with
  | none => (.error .typeError, t)
  | some f =>
      if force then (.ok (), { t with graph := t.graph.destroyVertex f.id })
      else
        match t.graph.removeVertex f.id with
        | .ok g => (.ok (), { t with graph := g })
        | .error e => (.error e, t)

/-- `Tree#hasDependency` (src/lib/tree.js lines 144-146): the dependency
edge runs from child to parent. -/
def hasDependency (t : LibTree) (parent child : V) : Bool :=
  t.graph.hasEdge child parent

/-- `Tree#addDependency` (src/lib/tree.js lines 154-161):
`graph.addEdge(childId, parentId)`; no endpoint is auto-created. -/
def addDependency (t : LibTree) (parent child : V) :
    (Except GErr Unit) × LibTree :=
  match t.graph.addEdge child parent with
  | .ok g => (.ok (), { t with graph := g })
  | .error e => (.error e, t)

/-- `Tree#removeDependency` (src/lib/tree.js lines 169-176). -/
def removeDependency (t : LibTree) (parent child : V) :
    (Except GErr Unit) × LibTree :=
  match t.graph.removeEdge child parent with
  | .ok g => (.ok (), { t with graph := g })
  | .error e => (.error e, t)

/-- The anchor set of `Tree#prune` (src/lib/tree.js lines 303-308): each
anchor file plus its recursive dependencies
(`verticesWithPathTo(file.id)`). -/
def pruneKeep (t : LibTree) (anchors : List V) : Finset V :=
  anchors.foldl (fun s a => (s ∪ {a}) ∪ t.graph.reachTo a) ∅

/-- `Tree#prune` (src/lib/tree.js lines 296-315): dereferencing a missing
anchor raises a `TypeError` (debug line 301) before any mutation; then the
files outside the anchor set, taken in topological order, are force
removed. -/
def prune (t : LibTree) (anchors : List V) : Except GErr LibTree :=
  if anchors.all t.hasFile then
    match Graph.toposortG t.graph with
    | .error e => .error e
    | .ok order =>
        let g2 := (order.filter (fun v => decide (v ∉ t.pruneKeep anchors))).foldl
          Graph.destroyVertex t.graph
        .ok { t with graph := g2 }
  else .error .typeError

/-- One iteration of `Tree#removeCycles` (src/lib/tree.js lines 325-336):
pick the cycle member with the highest out-degree (`indexOf` takes the
first on ties), and remove the dependency edge to its successor in the
cycle (wrapping to the first member). -/
def breakCycle (t : LibTree) (cyc : List V) : (Except GErr Unit) × LibTree :=
  let degrees := cyc.map t.graph.outDegree
  let highest := degrees.indexOf (degrees.foldr max 0)
  let child := cyc.getD highest ""
  let parent := cyc.getD (highest + 1) (cyc.headD "")
  t.removeDependency parent child

/-- The `cycles.forEach` loop of `Tree#removeCycles` (src/lib/tree.js
lines 320-338), over the cycle list produced by `graph.cycles()` (an
external enumeration of simple cycles; spec section 4.1). -/
def removeCyclesGo : LibTree → List (List V) → (Except GErr Unit) × LibTree
  | t, [] => (.ok (), t)
  | t, c :: cs =>
      match breakCycle t c with
      | (.ok _, t2) => removeCyclesGo t2 cs
      | (.error e, t2) => (.error e, t2)

/-- `File#reset` (src/lib/file.js lines 187-190): `history.splice(1)` keeps
only the original path, and `contents` is cleared.  Nothing else is
touched. -/
def fileReset (f : LibFile) : LibFile :=
  { f with history := f.history.take 1, contents := .null }

/-- Well-formed trees: the graph is well-formed and every vertex is stored
under its file's id (`graph.addNewVertex(file.id, file)`). -/
def TWF (t : LibTree) : Prop :=
  t.graph.WF ∧ ∀ p ∈ t.graph.vertices, p.2.id = p.1

end LibTree

namespace LibTree

/-- `File#toJSON` (src/lib/file.js lines 248-252) followed by
`JSON.stringify`: the clone without the `tree` link serializes its own
fields — the id, the Vinyl path `history`, the contents buffer (stored
under `_contents`) and every custom field. -/
def encodeFile (f : LibFile) : Json :=
  Json.obj (("id", Json.str f.id)
    :: ("history", Json.arr (f.history.map Json.str))
    :: ("_contents", encode f.contents)
    :: encodeObj f.fields)

/-- The persisted JSON shape of `Tree#toJSON` (src/lib/tree.js
lines 346-356): root, files, and `[childId, parentId]` edge pairs. -/
structure SerTree where
  root : String
  files : List Json
  dependencies : List (V × V)

/-- `Tree#toJSON`/`toString` (src/lib/tree.js lines 346-371): files in
graph order, edges verbatim.  The JSON text layer is lossless and modelled
structurally. -/
def toJSONModel (t : LibTree) : SerTree :=
  ⟨t.root, t.getFiles.map encodeFile, t.graph.edges⟩

/-- `File.fromObject` (src/lib/file.js lines 271-276) applied to a revived
JSON object: `props.contents = props._contents`, the remaining own fields
are carried over (Vinyl rebuilds `history`). -/
def decodeFile (j : Json) : LibFile :=
  match revive j with
  | .obj fs =>
      { id := match getField fs "id" with | some (.str s) => s | _ => ""
        history :=
          match getField fs "history" with
          | some (.arr xs) =>
              xs.filterMap (fun v => match v with | .str s => some s | _ => none)
          | _ => []
        contents := (getField fs "_contents").getD .null
        fields := fs.filter
          (fun p => !(p.1 == "id" || p.1 == "history" || p.1 == "_contents")) }
  | _ => ⟨"", [], .null, []⟩

/-- `Tree.fromString` (src/lib/tree.js lines 380-399): parse with the
reviver, rebuild every vertex under its original id with `addNewVertex`,
then add every dependency edge with `addNewEdge` (which fails with
`VertexNotFound`/`DuplicateEdge` exactly as `addEdge`, spec section 4.1). -/
def fromStringModel (s : SerTree) : Except GErr LibTree := do
  let files := s.files.map decodeFile
  let g ← files.foldlM (fun g f => g.addNewVertex f.id f) Graph.empty
  let g2 ← s.dependencies.foldlM (fun g e => g.addEdge e.1 e.2) g
  return ⟨s.root, g2⟩

/-- A file all of whose serialized fields survive the reviver: its id and
history entries do not look like ISO timestamps, its values are clean, no
custom field collides with the serialization keys, and no custom `type`
field holds the string `Buffer`. -/
def cleanFileB (f : LibFile) : Bool :=
  (parseIsoDate f.id).isNone &&
    f.history.all (fun p => (parseIsoDate p).isNone) &&
    cleanB f.contents && cleanObjB f.fields &&
    !(isBufferTag (getField f.fields "type")) &&
    f.fields.all (fun p => !(p.1 == "id" || p.1 == "history" || p.1 == "_contents" || p.1 == "type"))

end LibTree

/-! ## The part_003 variant (src/unnamed/part_003 with src/unnamed/part_004
files): vertices keyed by absolute path, explicit entry flag. -/

structure PFile where
  path : String
  entry : Bool
  deriving Repr, DecidableEq

structure P3Tree where
  graph : Graph PFile
  deriving Repr, DecidableEq

namespace P3Tree

def mk0 : P3Tree := ⟨Graph.empty⟩

def hasFile (t : P3Tree) (loc : V) : Bool := t.graph.hasVertex loc

def getFile (t : P3Tree) (loc : V) : Option PFile := t.graph.vertexValue loc

/-- `Tree#addFile` (src/unnamed/part_003 lines 47-54): add only when the
location is not yet present, so re-adding returns the existing node. -/
def addFile (t : P3Tree) (loc : String) (entry : Bool) : P3Tree :=
  ⟨t.graph.ensureVertex loc ⟨loc, entry⟩⟩

/-- `Tree#addDependency` (src/unnamed/part_003 lines 161-166): auto-create
the child first, then `graph.addEdge(child, parent)`.  The auto-created
child persists even when `addEdge` throws. -/
def addDependency (t : P3Tree) (parent child : V) :
    (Except GErr Unit) × P3Tree :=
  let t1 := if t.hasFile child then t else t.addFile child false
  match t1.graph.addEdge child parent with
  | .ok g => (.ok (), ⟨g⟩)
  | .error e => (.error e, t1)

/-- `Tree#getEntries` (src/unnamed/part_003 lines 121-141): the sink
vertices carrying the entry flag, optionally restricted to those reachable
from `from` (`start === end || graph.hasPath(start, end)`). -/
def getEntries (t : P3Tree) (start? : Option V) : List V :=
  let entries := t.graph.sinks.filter (fun p => p.2.entry)
  let entries2 :=
    match start? with
    | none => entries
    | some start =>
        entries.filter (fun p => decide (start = p.1) || t.graph.hasPath start p.1)
  entries2.map Prod.fst

end P3Tree

/-! ## The two part_002 variants: path-keyed trees with auto-gc edge
removal.  In the first variant edges run from parent to child and
`moveDependency` adds before removing; in the second (historically earlier)
variant `moveDependency` removes first, and `removeDependency` deletes a
child left without dependants. -/

structure F2 where
  path : String
  deriving Repr, DecidableEq

structure V1Tree where
  graph : Graph F2
  deriving Repr, DecidableEq

namespace V1Tree

def mk0 : V1Tree := ⟨Graph.empty⟩

def hasFile (t : V1Tree) (loc : V) : Bool := t.graph.hasVertex loc

def getFile (t : V1Tree) (loc : V) : Option F2 := t.graph.vertexValue loc

/-- `Tree#addFile` (src/unnamed/part_002 lines 18-23): `ensureVertex`. -/
def addFile (t : V1Tree) (loc : String) : V1Tree :=
  ⟨t.graph.ensureVertex loc ⟨loc⟩⟩

def hasDependency (t : V1Tree) (parent child : V) : Bool :=
  t.graph.hasEdge parent child

/-- `Tree#addDependency` (src/unnamed/part_002 lines 50-55): auto-create
the child, then `addEdge(parent, child)`. -/
def addDependency (t : V1Tree) (parent child : V) :
    (Except GErr Unit) × V1Tree :=
  let t1 := if t.hasFile child then t else t.addFile child
  match t1.graph.addEdge parent child with
  | .ok g => (.ok (), ⟨g⟩)
  | .error e => (.error e, t1)

/-- `Tree#removeDependency` (src/unnamed/part_002 lines 57-66): remove the
edge, then auto-gc the child when its in-degree dropped to zero. -/
def removeDependency (t : V1Tree) (parent child : V) :
    (Except GErr Unit) × V1Tree :=
  match t.graph.removeEdge parent child with
  | .error e => (.error e, t)
  | .ok g =>
      if g.inDegree child == 0 then
        match g.removeVertex child with
        | .ok g2 => (.ok (), ⟨g2⟩)
        | .error e => (.error e, ⟨g⟩)
      else (.ok (), ⟨g⟩)

/-- `Tree#moveDependency` (src/unnamed/part_002 lines 68-72): add the new
edge first, then remove the old one. -/
def moveDependency (t : V1Tree) (src dst child : V) :
    (Except GErr Unit) × V1Tree :=
  match t.addDependency dst child with
  | (.ok _, t1) => t1.removeDependency src child
  | (.error e, t1) => (.error e, t1)

end V1Tree

/-- The second part_002 variant keeps an edge value slot and creates
vertices implicitly through `createEdge`, so a vertex payload may be
absent. -/
structure V2Tree where
  graph : Graph (Option F2)
  deriving Repr, DecidableEq

namespace V2Tree

def mk0 : V2Tree := ⟨Graph.empty⟩

def getNode (t : V2Tree) (k : V) : Option (Option F2) := t.graph.vertexValue k

/-- `Tree#addDependency` (src/unnamed/part_002 lines 139-142):
`graph.createEdge(parent, child)`, implicitly creating missing vertices
with no value. -/
def addDependency (t : V2Tree) (parent child : V) : V2Tree :=
  ⟨t.graph.createEdge parent child none none⟩

/-- `Tree#removeDependency` (src/unnamed/part_002 lines 152-161): remove
the edge, then remove the child vertex when it has no dependants left. -/
def removeDependency (t : V2Tree) (parent child : V) :
    (Except GErr Unit) × V2Tree :=
  match t.graph.removeEdge parent child with
  | .error e => (.error e, t)
  | .ok g =>
      if (g.predIds child).length == 0 then
        match g.removeVertex child with
        | .ok g2 => (.ok (), ⟨g2⟩)
        | .error e => (.error e, ⟨g⟩)
      else (.ok (), ⟨g⟩)

/-- `Tree#moveDependency` (src/unnamed/part_002 lines 163-167): remove the
old edge first, then add the new one. -/
def moveDependency (t : V2Tree) (src dst child : V) :
    (Except GErr Unit) × V2Tree :=
  match t.removeDependency src child with
  | (.ok _, t1) => (.ok (), t1.addDependency dst child)
  | (.error e, t1) => (.error e, t1)

end V2Tree

/-! ## Shared association-list facts -/

theorem lookup_eq_some_iff {β : Type} {l : List (V × β)}
    (hnd : (l.map Prod.fst).Nodup) (k : V) (b : β) :
    l.lookup k = some b ↔ (k, b) ∈ l := by
  induction l with
  | nil => simp [List.lookup]
  | cons p l ih =>
      rcases p with ⟨k2, v2⟩
      simp only [List.map_cons, List.nodup_cons] at hnd
      by_cases hk : k = k2
      · subst hk
        simp only [List.lookup, beq_self_eq_true, List.mem_cons]
        constructor
        · intro h
          obtain rfl : v2 = b := Option.some.inj h
          exact Or.inl rfl
        · rintro (h | h)
          · obtain ⟨-, rfl⟩ := Prod.mk.injEq .. ▸ h
            rfl
          · exact absurd (List.mem_map.2 ⟨(k, b), h, rfl⟩) hnd.1
      · have hbeq : (k == k2) = false := beq_eq_false_iff_ne.2 hk
        simp only [List.lookup, hbeq, List.mem_cons]
        rw [ih hnd.2]
        constructor
        · exact Or.inr
        · rintro (h | h)
          · obtain ⟨h1, -⟩ := Prod.mk.injEq .. ▸ h
            exact absurd h1 hk
          · exact h

/-! ## Claim C10 — removeFile on a missing id -/

/-- C10: for every id absent from the tree, `removeFile(id, options)` — with
or without `force` — raises an error (the `TypeError` from dereferencing the
failed lookup on the debug line) instead of returning silently, and the
failed call leaves the tree, hence its vertex and edge sets, unchanged. -/
theorem c10_removeFile_missing (t : LibTree) (fid : V) (force : Bool)
    (h : t.getFile fid = none) :
    (t.removeFile fid force).1 = .error .typeError ∧
      (t.removeFile fid force).2 = t := by
  simp [LibTree.removeFile, h]

theorem c10_removeFile_missing_witness :
    (LibTree.mk0 "/").getFile "a.js" = none ∧
      ((LibTree.mk0 "/").removeFile "a.js" true).1 = .error .typeError ∧
      ((LibTree.mk0 "/").removeFile "a.js" true).2 = LibTree.mk0 "/" ∧
      ((LibTree.mk0 "/").removeFile "a.js" false).1 = .error .typeError ∧
      ((LibTree.mk0 "/").removeFile "a.js" false).2 = LibTree.mk0 "/" :=
  ⟨rfl, (c10_removeFile_missing (LibTree.mk0 "/") "a.js" true rfl).1,
    (c10_removeFile_missing (LibTree.mk0 "/") "a.js" true rfl).2,
    (c10_removeFile_missing (LibTree.mk0 "/") "a.js" false rfl).1,
    (c10_removeFile_missing (LibTree.mk0 "/") "a.js" false rfl).2⟩

/-! ## Claim C8 — dirty()/reset() -/

/-- C8 counterexample: the current `File#reset` (the `dirty` of the claim,
src/lib/file.js lines 187-190) does not set `analyzed` to `false`: on a
file whose `analyzed` flag is `true`, the flag is still `true` after the
call, not `false`. -/
theorem c8_counterexample :
    getField (LibTree.fileReset
      ⟨"id1", ["a.js", "a.html"], .buf [1], [("analyzed", .bool true)]⟩).fields
      "analyzed" = some (.bool true) ∧
      some (Value.bool true) ≠ some (Value.bool false) :=
  ⟨rfl, by simp⟩

/-- C8 (amended): `reset()` truncates `history` to `[history[0]]` and clears
`contents`; `history[0]` itself, the id and every other field — including
any `analyzed` or `isEntry` flag stored on the file — are unchanged.  (The
`analyzed` flag is not touched; only the earlier File variant's `dirty()`
reset it, and that variant touches neither history nor contents.) -/
theorem c8_reset (f : LibFile) :
    (LibTree.fileReset f).history = f.history.take 1 ∧
      (LibTree.fileReset f).history.head? = f.history.head? ∧
      (LibTree.fileReset f).contents = .null ∧
      (LibTree.fileReset f).id = f.id ∧
      (LibTree.fileReset f).fields = f.fields := by
  refine ⟨rfl, ?_, rfl, rfl, rfl⟩
  show (f.history.take 1).head? = f.history.head?
  cases f.history with
  | nil => rfl
  | cons a l => rfl

/-! ## Claim C3 — addFile on an existing id/path -/

/-- C3: evaluating the current `Tree#addFile` (src/lib/tree.js lines 52-63)
at the failing input.  Adding the same path twice creates a second vertex
under a fresh uuid and returns the new node, and adding with an explicit
`params.id` that already exists throws `DuplicateVertex` via
`graph.addNewVertex` — not the documented no-op returning the existing
node.  (The part_003 variant, also cited by the claim, does implement the
documented check.) -/
theorem c3_addFile_failing_input :
    (((LibTree.mk0 "/").addFile "index.html" none "u1").2.size = 1) ∧
    ((((LibTree.mk0 "/").addFile "index.html" none "u1").2.addFile
        "index.html" none "u2").2.size = 2) ∧
    ((((LibTree.mk0 "/").addFile "index.html" none "u1").2.addFile
        "index.html" none "u2").1 = .ok ⟨"u2", ["index.html"], .null, []⟩) ∧
    (((LibTree.mk0 "/").addFile "index.html" none "u1").2.getFile "u1" =
      some ⟨"u1", ["index.html"], .null, []⟩) ∧
    ((((LibTree.mk0 "/").addFile "index.html" none "u1").2.addFile
        "index.html" (some "u1") "u3").1 = .error .duplicateVertex) :=
  ⟨rfl, rfl, rfl, rfl, rfl⟩

namespace Graph

theorem hasPath_iff {α : Type} {g : Graph α} {a b : V} :
    g.hasPath a b = true ↔ g.Reaches a b := by
  rw [hasPath, decide_eq_true_eq]
  exact mem_reachFrom

end Graph

/-! ## Claim C9 — getEntries -/

/-- C9 counterexample: in the part_003 variant, `getEntries()` keeps only
the *sink* vertices, so a file whose `entry` flag is true but that some
other file depends on is not returned: with `a` and `b` both flagged and
`a` a dependency of `b` (edge a → b), `getEntries()` returns `[b]` only,
although `a` is a flagged file of the tree. -/
theorem c9_counterexample :
    (((P3Tree.mk0.addFile "a" true).addFile "b" true).addDependency
        "b" "a").2.getEntries none = ["b"] ∧
      (((P3Tree.mk0.addFile "a" true).addFile "b" true).addDependency
        "b" "a").2.getFile "a" = some ⟨"a", true⟩ ∧
      "a" ∉ (((P3Tree.mk0.addFile "a" true).addFile "b" true).addDependency
        "b" "a").2.getEntries none := by
  refine ⟨rfl, rfl, ?_⟩
  decide

/-- C9 (amended): `getEntries()` returns exactly the files that are flagged
`isEntry` *and* are sinks (no outgoing dependency edge, i.e. no file
depends on them); `getEntries({from})` keeps of those exactly the ones
equal to `from` or reachable from `from` along dependency edges. -/
theorem c9_getEntries (t : P3Tree) (hwf : t.graph.WF) :
    (∀ v, v ∈ t.getEntries none ↔
      ∃ f, t.getFile v = some f ∧ f.entry = true ∧ t.graph.outDegree v = 0) ∧
    (∀ start v, v ∈ t.getEntries (some start) ↔
      (∃ f, t.getFile v = some f ∧ f.entry = true ∧ t.graph.outDegree v = 0) ∧
        (start = v ∨ t.graph.Reaches start v)) := by
  constructor
  · intro v
    simp only [P3Tree.getEntries, Graph.sinks, List.mem_map, List.mem_filter]
    constructor
    · rintro ⟨⟨k, f⟩, ⟨⟨hmem, hdeg⟩, hent⟩, rfl⟩
      exact ⟨f, (lookup_eq_some_iff hwf.1 k f).2 hmem, hent, by simpa using hdeg⟩
    · rintro ⟨f, hget, hent, hdeg⟩
      exact ⟨(v, f), ⟨⟨(lookup_eq_some_iff hwf.1 v f).1 hget, by simpa using hdeg⟩,
        hent⟩, rfl⟩
  · intro start v
    simp only [P3Tree.getEntries, Graph.sinks, List.mem_map, List.mem_filter]
    constructor
    · rintro ⟨⟨k, f⟩, ⟨⟨⟨hmem, hdeg⟩, hent⟩, hfrom⟩, rfl⟩
      refine ⟨⟨f, (lookup_eq_some_iff hwf.1 k f).2 hmem, hent, by simpa using hdeg⟩, ?_⟩
      rcases Bool.or_eq_true .. ▸ hfrom with h | h
      · exact Or.inl (of_decide_eq_true h)
      · exact Or.inr (Graph.hasPath_iff.1 h)
    · rintro ⟨⟨f, hget, hent, hdeg⟩, hfrom⟩
      refine ⟨(v, f), ⟨⟨⟨(lookup_eq_some_iff hwf.1 v f).1 hget, by simpa using hdeg⟩,
        hent⟩, ?_⟩, rfl⟩
      rcases hfrom with h | h
      · exact Bool.or_eq_true .. ▸ Or.inl (decide_eq_true h)
      · exact Bool.or_eq_true .. ▸ Or.inr (Graph.hasPath_iff.2 h)

theorem c9_getEntries_witness :
    (∃ f, (((P3Tree.mk0.addFile "a" true).addFile "b" true).addDependency
        "b" "a").2.getFile "b" = some f ∧ f.entry = true ∧
      (((P3Tree.mk0.addFile "a" true).addFile "b" true).addDependency
        "b" "a").2.graph.outDegree "b" = 0) :=
  ((c9_getEntries (((P3Tree.mk0.addFile "a" true).addFile "b" true).addDependency
      "b" "a").2 (by refine ⟨by decide, by decide, by decide⟩)).1 "b").1 (by decide)

/-! ## Claim C4 — addDependency -/

/-- C4 counterexample: in the part_003 variant, `addDependency` with an
absent parent and a missing child auto-creates the child *before* the edge
insertion throws `VertexNotFound`, so the failed call does add a vertex;
and with parent equal to child the call even succeeds (self-loop) instead
of failing; moreover a call whose parent exists but whose edge already
exists fails with `DuplicateEdge`, so existence of the parent alone does
not make the call succeed. -/
theorem c4_counterexample :
    ((P3Tree.mk0.addDependency "a" "b").1 = .error .vertexNotFound ∧
      (P3Tree.mk0.addDependency "a" "b").2.hasFile "b" = true ∧
      (P3Tree.mk0.addDependency "a" "b").2.graph.vertices.length = 1) ∧
    ((P3Tree.mk0.addDependency "a" "a").1 = .ok ()) ∧
    ((((P3Tree.mk0.addFile "a" false).addDependency "a" "b").2.addDependency
        "a" "b").1 = .error .duplicateEdge) :=
  ⟨⟨rfl, rfl, rfl⟩, rfl, rfl⟩

/-- C4 (amended): in the part_003 variant, for every tree in which `parent`
exists and `child` is not already a dependency of `parent`,
`addDependency(parent, child)` succeeds, creating the vertex for `child`
first when it is missing and then adding the dependency edge from child to
parent; when `parent` is absent (and distinct from `child`), the call fails
with `VertexNotFound` and adds no edge — but a missing `child` has
nonetheless been auto-created before the failure. -/
theorem c4_addDependency (t : P3Tree) (parent child : V) :
    (t.hasFile parent = true → t.graph.hasEdge child parent = false →
      (t.addDependency parent child).1 = .ok () ∧
      (t.addDependency parent child).2.hasFile child = true ∧
      (t.addDependency parent child).2.graph.edges =
        t.graph.edges ++ [(child, parent)] ∧
      (t.addDependency parent child).2.graph.vertices =
        (if t.hasFile child then t.graph.vertices
         else t.graph.vertices ++ [(child, ⟨child, false⟩)])) ∧
    (t.hasFile parent = false → parent ≠ child →
      (t.addDependency parent child).1 = .error .vertexNotFound ∧
      (t.addDependency parent child).2.graph.edges = t.graph.edges ∧
      (t.addDependency parent child).2.graph.vertices =
        (if t.hasFile child then t.graph.vertices
         else t.graph.vertices ++ [(child, ⟨child, false⟩)])) := by
  have hfile : ∀ k, t.hasFile k = t.graph.hasVertex k := fun _ => rfl
  constructor
  · intro hp hne
    by_cases hc : t.hasFile child = true
    · have hcv : t.graph.hasVertex child = true := by rw [← hfile]; exact hc
      have hpv : t.graph.hasVertex parent = true := by rw [← hfile]; exact hp
      have ht1 : (if t.hasFile child then t else t.addFile child false) = t :=
        if_pos hc
      have hres : t.addDependency parent child = (.ok (),
          ⟨{ t.graph with edges := t.graph.edges ++ [(child, parent)] }⟩) := by
        simp only [P3Tree.addDependency, ht1, Graph.addEdge, hcv, hpv,
          Bool.and_self, hne]
        simp
      rw [hres]
      exact ⟨rfl, hcv, rfl, by rw [if_pos hc]⟩
    · have hcv : t.graph.hasVertex child = false := by
        rw [← hfile]
        exact Bool.not_eq_true _ ▸ hc
      have hpv : t.graph.hasVertex parent = true := by rw [← hfile]; exact hp
      have ht1 : (if t.hasFile child then t else t.addFile child false) =
          ⟨{ t.graph with
              vertices := t.graph.vertices ++ [(child, ⟨child, false⟩)] }⟩ := by
        rw [if_neg (by rw [hfile, hcv]; exact Bool.false_ne_true)]
        simp only [P3Tree.addFile, Graph.ensureVertex, hcv]
        simp
      have hvc : ({ t.graph with
          vertices := t.graph.vertices ++ [(child, ⟨child, false⟩)] } :
            Graph PFile).hasVertex child = true := by
        simp [Graph.hasVertex, Graph.vertexIds]
      have hvp : ({ t.graph with
          vertices := t.graph.vertices ++ [(child, ⟨child, false⟩)] } :
            Graph PFile).hasVertex parent = true := by
        simp only [Graph.hasVertex, Graph.vertexIds] at hpv ⊢
        simp only [List.map_append, List.map_cons, List.map_nil]
        simp at hpv ⊢
        exact Or.inl hpv
      have hedge : ({ t.graph with
          vertices := t.graph.vertices ++ [(child, ⟨child, false⟩)] } :
            Graph PFile).hasEdge child parent = false := hne
      have hres : t.addDependency parent child = (.ok (),
          ⟨{ vertices := t.graph.vertices ++ [(child, ⟨child, false⟩)],
             edges := t.graph.edges ++ [(child, parent)] }⟩) := by
        simp only [P3Tree.addDependency, ht1, Graph.addEdge, hvc, hvp,
          Bool.and_self, hedge]
        simp
      rw [hres]
      refine ⟨rfl, hvc, rfl, ?_⟩
      rw [if_neg (by rw [hfile, hcv]; exact Bool.false_ne_true)]
  · intro hp hpc
    by_cases hc : t.hasFile child = true
    · have hcv : t.graph.hasVertex child = true := by rw [← hfile]; exact hc
      have hpv : t.graph.hasVertex parent = false := by rw [← hfile]; exact hp
      have ht1 : (if t.hasFile child then t else t.addFile child false) = t :=
        if_pos hc
      have hres : t.addDependency parent child =
          (.error .vertexNotFound, t) := by
        simp only [P3Tree.addDependency, ht1, Graph.addEdge, hcv, hpv,
          Bool.and_false]
        simp
      rw [hres]
      exact ⟨rfl, rfl, by rw [if_pos hc]⟩
    · have hcv : t.graph.hasVertex child = false := by
        rw [← hfile]
        exact Bool.not_eq_true _ ▸ hc
      have hpv : t.graph.hasVertex parent = false := by rw [← hfile]; exact hp
      have ht1 : (if t.hasFile child then t else t.addFile child false) =
          ⟨{ t.graph with
              vertices := t.graph.vertices ++ [(child, ⟨child, false⟩)] }⟩ := by
        rw [if_neg (by rw [hfile, hcv]; exact Bool.false_ne_true)]
        simp only [P3Tree.addFile, Graph.ensureVertex, hcv]
        simp
      have hvp : ({ t.graph with
          vertices := t.graph.vertices ++ [(child, ⟨child, false⟩)] } :
            Graph PFile).hasVertex parent = false := by
        simp only [Graph.hasVertex, Graph.vertexIds] at hpv ⊢
        simp only [List.map_append, List.map_cons, List.map_nil]
        simp at hpv ⊢
        exact ⟨hpv, fun h => hpc h⟩
      have hres : t.addDependency parent child = (.error .vertexNotFound,
          ⟨{ t.graph with
              vertices := t.graph.vertices ++ [(child, ⟨child, false⟩)] }⟩) := by
        simp only [P3Tree.addDependency, ht1, Graph.addEdge, hvp,
          Bool.and_false]
        simp
      rw [hres]
      refine ⟨rfl, rfl, ?_⟩
      rw [if_neg (by rw [hfile, hcv]; exact Bool.false_ne_true)]

theorem c4_addDependency_witness :
    ((((P3Tree.mk0.addFile "a" false).addDependency "a" "b").1 = .ok ()) ∧
      (((P3Tree.mk0.addFile "a" false).addDependency "a" "b").2.hasFile "b" = true)) ∧
    (((P3Tree.mk0.addFile "x" false).addDependency "a" "b").1 =
      .error .vertexNotFound) :=
  ⟨⟨((c4_addDependency (P3Tree.mk0.addFile "a" false) "a" "b").1 (by decide)
      (by decide)).1,
    ((c4_addDependency (P3Tree.mk0.addFile "a" false) "a" "b").1 (by decide)
      (by decide)).2.1⟩,
    ((c4_addDependency (P3Tree.mk0.addFile "x" false) "a" "b").2 (by decide)
      (by decide)).1⟩

/-! ## Claim C5 — moveDependency -/

namespace Graph

theorem hasEdge_iff {α : Type} {g : Graph α} {a b : V} :
    g.hasEdge a b = true ↔ (a, b) ∈ g.edges := by
  simp [hasEdge]

end Graph

/-- C5 counterexample: the second `moveDependency` variant
(src/unnamed/part_002 lines 163-167) removes the old edge first; with `c`'s
only dependant being `f`, the auto-gc of `removeDependency` deletes `c` in
the gap, and `createEdge` then re-creates it with no file value: after the
call the node's value is gone (`getNode "c" = some none`), although the
claim says the child is never deleted by auto-gc between removal and
re-addition. -/
theorem c5_counterexample :
    (V2Tree.mk ⟨[("f", some ⟨"f"⟩), ("t", some ⟨"t"⟩), ("c", some ⟨"c"⟩)],
        [("f", "c")]⟩).getNode "c" = some (some ⟨"c"⟩) ∧
    ((V2Tree.mk ⟨[("f", some ⟨"f"⟩), ("t", some ⟨"t"⟩), ("c", some ⟨"c"⟩)],
        [("f", "c")]⟩).moveDependency "f" "t" "c").1 = .ok () ∧
    ((V2Tree.mk ⟨[("f", some ⟨"f"⟩), ("t", some ⟨"t"⟩), ("c", some ⟨"c"⟩)],
        [("f", "c")]⟩).moveDependency "f" "t" "c").2.getNode "c" = some none ∧
    some (none : Option F2) ≠ some (some (⟨"c"⟩ : F2)) := by
  refine ⟨rfl, rfl, rfl, by simp⟩

/-- C5 (amended): in the first `moveDependency` variant (src/unnamed/
part_002 lines 68-72) the new edge is added before the old one is removed,
so for every well-formed tree where `child` is a dependency of `src`, the
vertex `dst` exists, and `child` is not already a dependency of `dst`, the
call succeeds, `child` is still present with its original file node,
`hasDependency(dst, child)` is true and `hasDependency(src, child)` is
false — the child is never deleted by the auto-gc in the gap.  (The second
variant removes first and loses the child's node, see the
counterexample.) -/
theorem c5_moveDependency_v1 (t : V1Tree) (src dst child : V)
    (hwf : t.graph.WF) (hdst : t.hasFile dst = true)
    (hold : t.graph.hasEdge src child = true)
    (hnew : t.graph.hasEdge dst child = false) :
    (t.moveDependency src dst child).1 = .ok () ∧
      (t.moveDependency src dst child).2.hasFile child = true ∧
      (t.moveDependency src dst child).2.getFile child = t.getFile child ∧
      (t.moveDependency src dst child).2.hasDependency dst child = true ∧
      (t.moveDependency src dst child).2.hasDependency src child = false := by
  have holdm : (src, child) ∈ t.graph.edges := Graph.hasEdge_iff.1 hold
  have hnewm : (dst, child) ∉ t.graph.edges := by
    intro h
    rw [Graph.hasEdge_iff.2 h] at hnew
    exact Bool.noConfusion hnew
  have hsd : src ≠ dst := by
    rintro rfl
    exact hnewm holdm
  have hchildv : t.graph.hasVertex child = true := by
    have h2 := (hwf.2.2 _ holdm).2
    simp only [Graph.hasVertex]
    simpa [Graph.vertexIds] using h2
  have hchild : t.hasFile child = true := hchildv
  have ht1 : (if t.hasFile child then t else t.addFile child) = t :=
    if_pos hchild
  have hdstv : t.graph.hasVertex dst = true := hdst
  have hadd : t.graph.addEdge dst child =
      .ok { t.graph with edges := t.graph.edges ++ [(dst, child)] } := by
    simp only [Graph.addEdge, hdstv, hchildv, Bool.and_self, hnew]
    simp
  have hstep1 : t.addDependency dst child = (.ok (),
      ⟨{ t.graph with edges := t.graph.edges ++ [(dst, child)] }⟩) := by
    simp only [V1Tree.addDependency, ht1, hadd]
  have hmem1 : (src, child) ∈ t.graph.edges ++ [(dst, child)] :=
    List.mem_append.2 (Or.inl holdm)
  have hrm : ({ t.graph with edges := t.graph.edges ++ [(dst, child)] } :
      Graph F2).removeEdge src child =
      .ok { t.graph with
        edges := (t.graph.edges ++ [(dst, child)]).erase (src, child) } := by
    simp only [Graph.removeEdge]
    rw [if_pos]
    simp only [Graph.hasEdge]
    simpa using hmem1
  have hmem2 : (dst, child) ∈
      (t.graph.edges ++ [(dst, child)]).erase (src, child) :=
    (List.mem_erase_of_ne (by simp [Ne.symm hsd])).2
      (List.mem_append.2 (Or.inr (List.mem_singleton.2 rfl)))
  have hindeg : (({ t.graph with
      edges := (t.graph.edges ++ [(dst, child)]).erase (src, child) } :
        Graph F2).inDegree child == 0) = false := by
    have hpos : 0 < ({ t.graph with
        edges := (t.graph.edges ++ [(dst, child)]).erase (src, child) } :
          Graph F2).inDegree child := by
      apply List.length_pos.2
      intro hnil
      have : dst ∈ ({ t.graph with
          edges := (t.graph.edges ++ [(dst, child)]).erase (src, child) } :
            Graph F2).predIds child := by
        simp only [Graph.predIds, List.mem_map, List.mem_filter]
        exact ⟨(dst, child), ⟨hmem2, by simp⟩, rfl⟩
      rw [hnil] at this
      exact List.not_mem_nil _ this
    have hne0 : ({ t.graph with
        edges := (t.graph.edges ++ [(dst, child)]).erase (src, child) } :
          Graph F2).inDegree child ≠ 0 := Nat.pos_iff_ne_zero.1 hpos
    exact beq_eq_false_iff_ne.2 hne0
  have hstep2 : (⟨{ t.graph with edges := t.graph.edges ++ [(dst, child)] }⟩ :
      V1Tree).removeDependency src child = (.ok (),
      ⟨{ t.graph with
        edges := (t.graph.edges ++ [(dst, child)]).erase (src, child) }⟩) := by
    simp only [V1Tree.removeDependency, hrm, hindeg]
    simp
  have hres : t.moveDependency src dst child = (.ok (),
      ⟨{ t.graph with
        edges := (t.graph.edges ++ [(dst, child)]).erase (src, child) }⟩) := by
    simp only [V1Tree.moveDependency, hstep1, hstep2]
  rw [hres]
  refine ⟨rfl, hchildv, rfl, ?_, ?_⟩
  · simp only [V1Tree.hasDependency, Graph.hasEdge]
    simpa using hmem2
  · simp only [V1Tree.hasDependency, Graph.hasEdge]
    have hnd : (t.graph.edges ++ [(dst, child)]).Nodup := by
      rw [List.nodup_append]
      exact ⟨hwf.2.1, List.nodup_singleton _, by simpa using hnewm⟩
    have : (src, child) ∉ (t.graph.edges ++ [(dst, child)]).erase (src, child) :=
      hnd.not_mem_erase
    simpa using this

theorem c5_moveDependency_v1_witness :
    ((V1Tree.mk ⟨[("f", ⟨"f"⟩), ("t", ⟨"t"⟩), ("c", ⟨"c"⟩)],
        [("f", "c")]⟩).moveDependency "f" "t" "c").1 = .ok () ∧
      ((V1Tree.mk ⟨[("f", ⟨"f"⟩), ("t", ⟨"t"⟩), ("c", ⟨"c"⟩)],
        [("f", "c")]⟩).moveDependency "f" "t" "c").2.hasFile "c" = true ∧
      ((V1Tree.mk ⟨[("f", ⟨"f"⟩), ("t", ⟨"t"⟩), ("c", ⟨"c"⟩)],
        [("f", "c")]⟩).moveDependency "f" "t" "c").2.getFile "c" =
        (V1Tree.mk ⟨[("f", ⟨"f"⟩), ("t", ⟨"t"⟩), ("c", ⟨"c"⟩)],
          [("f", "c")]⟩).getFile "c" ∧
      ((V1Tree.mk ⟨[("f", ⟨"f"⟩), ("t", ⟨"t"⟩), ("c", ⟨"c"⟩)],
        [("f", "c")]⟩).moveDependency "f" "t" "c").2.hasDependency "t" "c" = true ∧
      ((V1Tree.mk ⟨[("f", ⟨"f"⟩), ("t", ⟨"t"⟩), ("c", ⟨"c"⟩)],
        [("f", "c")]⟩).moveDependency "f" "t" "c").2.hasDependency "f" "c" = false :=
  c5_moveDependency_v1
    (V1Tree.mk ⟨[("f", ⟨"f"⟩), ("t", ⟨"t"⟩), ("c", ⟨"c"⟩)], [("f", "c")]⟩)
    "f" "t" "c" (by refine ⟨by decide, by decide, by decide⟩)
    (by decide) (by decide) (by decide)

/-! ## Claim C6 — removeCycles -/

theorem foldr_max_mem : ∀ (l : List Nat), l ≠ [] → l.foldr max 0 ∈ l := by
  intro l
  induction l with
  | nil => intro h; exact absurd rfl h
  | cons a l ih =>
      intro _
      cases l with
      | nil => simp
      | cons b l2 =>
          rcases Nat.le_total a ((b :: l2).foldr max 0) with h | h
          · have heq : (a :: b :: l2).foldr max 0 = (b :: l2).foldr max 0 := by
              rw [List.foldr_cons, Nat.max_eq_right h]
            rw [heq]
            exact List.mem_cons_of_mem a (ih (by simp))
          · have heq : (a :: b :: l2).foldr max 0 = a := by
              rw [List.foldr_cons, Nat.max_eq_left h]
            rw [heq]
            exact List.mem_cons_self a _

theorem foldr_max_le : ∀ (l : List Nat) (x : Nat), x ∈ l → x ≤ l.foldr max 0 := by
  intro l
  induction l with
  | nil => intro x h; exact absurd h (List.not_mem_nil x)
  | cons a l ih =>
      intro x h
      rcases List.mem_cons.1 h with rfl | h
      · exact Nat.le_max_left _ _
      · exact Nat.le_trans (ih x h) (Nat.le_max_right _ _)

theorem getD_indexOf : ∀ (l : List Nat) (a : Nat), a ∈ l →
    l.getD (l.indexOf a) 0 = a := by
  intro l
  induction l with
  | nil => intro a h; exact absurd h (List.not_mem_nil a)
  | cons b l ih =>
      intro a h
      by_cases hb : b = a
      · subst hb
        rw [List.indexOf_cons_self]
        rfl
      · rw [List.indexOf_cons_ne _ hb]
        have h2 : a ∈ l := by
          rcases List.mem_cons.1 h with h | h
          · exact absurd h.symm hb
          · exact h
        simpa using ih a h2

theorem getD_lt_indexOf : ∀ (l : List Nat) (a : Nat) (j : Nat),
    j < l.indexOf a → l.getD j 0 ≠ a := by
  intro l
  induction l with
  | nil => intro a j h; simp [List.indexOf] at h
  | cons b l ih =>
      intro a j h
      by_cases hb : b = a
      · subst hb
        rw [List.indexOf_cons_self] at h
        exact absurd h (Nat.not_lt_zero j)
      · rw [List.indexOf_cons_ne _ hb] at h
        cases j with
        | zero => simpa using hb
        | succ j =>
            have := ih a j (Nat.lt_of_succ_lt_succ h)
            simpa using this

theorem getD_map_deg (f : V → Nat) : ∀ (l : List V) (j : Nat),
    j < l.length → (l.map f).getD j 0 = f (l.getD j "") := by
  intro l
  induction l with
  | nil => intro j h; simp at h
  | cons a l ih =>
      intro j h
      cases j with
      | zero => rfl
      | succ j =>
          have := ih j (by simpa using Nat.lt_of_succ_lt_succ h)
          simpa using this

/-- The consecutive edges of a cycle given as a vertex list (wrapping from
the last vertex back to the first). -/
def cycEdges : List V → List (V × V)
  | [] => []
  | v :: vs => (v :: vs).zip (vs ++ [v])

/-- A simple cycle of the graph as enumerated by graph.js `cycles()`
(spec section 4.1): a nonempty vertex sequence, without repeats, whose
consecutive pairs (wrapping around) are all edges. -/
def IsCycleOf {α : Type} (g : Graph α) (c : List V) : Prop :=
  c ≠ [] ∧ c.Nodup ∧ ∀ e ∈ cycEdges c, e ∈ g.edges

theorem mem_zip_of_get? {β : Type} : ∀ (l1 : List V) (l2 : List β) (i : Nat)
    (x : V) (y : β), l1.get? i = some x → l2.get? i = some y →
    (x, y) ∈ l1.zip l2 := by
  intro l1
  induction l1 with
  | nil => intro l2 i x y h1 _; simp at h1
  | cons a l1 ih =>
      intro l2 i x y h1 h2
      cases l2 with
      | nil => simp at h2
      | cons b l2 =>
          cases i with
          | zero =>
              obtain rfl := Option.some.inj h1
              obtain rfl := Option.some.inj h2
              simp [List.zip_cons_cons]
          | succ i =>
              simp only [List.get?_cons_succ] at h1 h2
              exact List.mem_cons_of_mem _ (ih l2 i x y h1 h2)

theorem get?_eq_some_getD : ∀ (l : List V) (n : Nat), n < l.length →
    l.get? n = some (l.getD n "") := by
  intro l
  induction l with
  | nil => intro n h; simp at h
  | cons a l ih =>
      intro n h
      cases n with
      | zero => rfl
      | succ n => exact ih n (Nat.lt_of_succ_lt_succ h)

theorem getD_default_irrel : ∀ (l : List V) (n : Nat) (d1 d2 : V),
    n < l.length → l.getD n d1 = l.getD n d2 := by
  intro l
  induction l with
  | nil => intro n d1 d2 h; simp at h
  | cons a l ih =>
      intro n d1 d2 h
      cases n with
      | zero => rfl
      | succ n => exact ih n d1 d2 (Nat.lt_of_succ_lt_succ h)

theorem selected_mem_cycEdges (c : List V) (h : Nat) (hlt : h < c.length) :
    (c.getD h "", c.getD (h + 1) (c.headD "")) ∈ cycEdges c := by
  cases c with
  | nil => simp at hlt
  | cons v vs =>
      apply mem_zip_of_get? (v :: vs) (vs ++ [v]) h
      · exact get?_eq_some_getD (v :: vs) h hlt
      · rcases Nat.lt_or_ge h vs.length with hh | hh
        · rw [List.get?_append hh, get?_eq_some_getD vs h hh]
          have : (v :: vs).getD (h + 1) ((v :: vs).headD "") = vs.getD h "" := by
            show vs.getD h ((v :: vs).headD "") = vs.getD h ""
            exact getD_default_irrel vs h _ _ hh
          rw [this]
        · have hEq : h = vs.length := by
            simp only [List.length_cons] at hlt
            omega
          subst hEq
          rw [List.get?_concat_length]
          have : (v :: vs).getD (vs.length + 1) ((v :: vs).headD "") = v := by
            rw [List.getD_eq_default]
            · rfl
            · simp
          rw [this]

/-- The cycle member selected by `removeCycles` (first index of the highest
out-degree) and the removed edge's other endpoint (its successor in the
cycle, wrapping around). -/
def selChild (t : LibTree) (c : List V) : V :=
  c.getD ((c.map t.graph.outDegree).indexOf
    ((c.map t.graph.outDegree).foldr max 0)) ""

def selParent (t : LibTree) (c : List V) : V :=
  c.getD ((c.map t.graph.outDegree).indexOf
    ((c.map t.graph.outDegree).foldr max 0) + 1) (c.headD "")

theorem breakCycle_eq (t : LibTree) (c : List V) :
    t.breakCycle c = t.removeDependency (selParent t c) (selChild t c) := rfl

theorem breakCycle_pos (t : LibTree) (c : List V)
    (hhe : t.graph.hasEdge (selChild t c) (selParent t c) = true) :
    t.breakCycle c = (.ok (), { t with graph := { t.graph with
      edges := t.graph.edges.erase (selChild t c, selParent t c) } }) := by
  rw [breakCycle_eq]
  simp only [LibTree.removeDependency, Graph.removeEdge, hhe, reduceIte]

theorem breakCycle_neg (t : LibTree) (c : List V)
    (hhe : t.graph.hasEdge (selChild t c) (selParent t c) = false) :
    t.breakCycle c = (.error .edgeNotFound, t) := by
  rw [breakCycle_eq]
  simp only [LibTree.removeDependency, Graph.removeEdge, hhe]
  simp

theorem getD_mem_nat : ∀ (l : List Nat) (n : Nat), n < l.length →
    l.getD n 0 ∈ l := by
  intro l
  induction l with
  | nil => intro n h; simp at h
  | cons a l ih =>
      intro n h
      cases n with
      | zero => exact List.mem_cons_self a l
      | succ n =>
          exact List.mem_cons_of_mem a (ih n (Nat.lt_of_succ_lt_succ h))

theorem breakCycle_spec (t : LibTree) (c : List V)
    (hcyc : IsCycleOf t.graph c) :
    ∃ h, h < c.length ∧ selChild t c = c.getD h "" ∧
      selParent t c = c.getD (h + 1) (c.headD "") ∧
      (selChild t c, selParent t c) ∈ t.graph.edges ∧
      (∀ v ∈ c, t.graph.outDegree v ≤ t.graph.outDegree (selChild t c)) ∧
      (∀ j < h, t.graph.outDegree (c.getD j "") <
        t.graph.outDegree (selChild t c)) ∧
      t.breakCycle c = (.ok (), { t with graph := { t.graph with
        edges := t.graph.edges.erase (selChild t c, selParent t c) } }) := by
  obtain ⟨hne, hnd, hedges⟩ := hcyc
  have hdne : (c.map t.graph.outDegree) ≠ [] := by simpa using hne
  have hmmem : (c.map t.graph.outDegree).foldr max 0 ∈ c.map t.graph.outDegree :=
    foldr_max_mem _ hdne
  have hlt : (c.map t.graph.outDegree).indexOf
      ((c.map t.graph.outDegree).foldr max 0) < (c.map t.graph.outDegree).length :=
    List.indexOf_lt_length.2 hmmem
  have hltc : (c.map t.graph.outDegree).indexOf
      ((c.map t.graph.outDegree).foldr max 0) < c.length := by
    simpa using hlt
  have hchd : t.graph.outDegree (selChild t c) =
      (c.map t.graph.outDegree).foldr max 0 := by
    rw [selChild, ← getD_map_deg t.graph.outDegree c _ hltc]
    exact getD_indexOf _ _ hmmem
  have hmem : (selChild t c, selParent t c) ∈ t.graph.edges := by
    rw [selChild, selParent]
    exact hedges _ (selected_mem_cycEdges c _ hltc)
  refine ⟨_, hltc, rfl, rfl, hmem, ?_, ?_, ?_⟩
  · intro v hv
    rw [hchd]
    exact foldr_max_le _ _ (List.mem_map.2 ⟨v, hv, rfl⟩)
  · intro j hj
    rw [hchd]
    have hjc : j < c.length := Nat.lt_trans hj hltc
    have h3 : (c.map t.graph.outDegree).getD j 0 =
        t.graph.outDegree (c.getD j "") := getD_map_deg t.graph.outDegree c j hjc
    have h4 := getD_lt_indexOf (c.map t.graph.outDegree) _ j hj
    have h5 := foldr_max_le (c.map t.graph.outDegree) _
      (getD_mem_nat _ j (by simpa using hjc))
    rw [← h3]
    exact Nat.lt_of_le_of_ne h5 h4
  · exact breakCycle_pos t c (by rw [Graph.hasEdge]; simpa using hmem)

theorem breakCycle_ok_shape (t : LibTree) (c : List V)
    (hok : (t.breakCycle c).1 = .ok ()) :
    ∃ e, e ∈ t.graph.edges ∧
      (t.breakCycle c).2.graph.vertices = t.graph.vertices ∧
      (t.breakCycle c).2.graph.edges = t.graph.edges.erase e := by
  by_cases hhe : t.graph.hasEdge (selChild t c) (selParent t c) = true
  · rw [breakCycle_pos t c hhe]
    exact ⟨(selChild t c, selParent t c), Graph.hasEdge_iff.1 hhe, rfl, rfl⟩
  · rw [breakCycle_neg t c (Bool.not_eq_true _ ▸ hhe)] at hok
    exact absurd hok (by simp)

theorem removeCyclesGo_spec : ∀ (cs : List (List V)) (t t2 : LibTree),
    LibTree.removeCyclesGo t cs = (.ok (), t2) →
    t2.graph.vertices = t.graph.vertices ∧
      t2.graph.edges.length + cs.length = t.graph.edges.length ∧
      ∀ e ∈ t2.graph.edges, e ∈ t.graph.edges := by
  intro cs
  induction cs with
  | nil =>
      intro t t2 h
      obtain rfl : t = t2 := congrArg Prod.snd h
      exact ⟨rfl, rfl, fun e he => he⟩
  | cons c cs ih =>
      intro t t2 h
      simp only [LibTree.removeCyclesGo] at h
      rcases hb : t.breakCycle c with ⟨r, tmid⟩
      rw [hb] at h
      cases r with
      | error e => simp at h
      | ok u =>
          cases u
          have hok : (t.breakCycle c).1 = .ok () := by rw [hb]
          obtain ⟨e, hemem, hvert, hedges⟩ := breakCycle_ok_shape t c hok
          rw [hb] at hvert hedges
          obtain ⟨ih1, ih2, ih3⟩ := ih tmid t2 h
          refine ⟨by rw [ih1, hvert], ?_, ?_⟩
          · have hlen : tmid.graph.edges.length + 1 = t.graph.edges.length := by
              rw [hedges, List.length_erase_of_mem hemem]
              have hpos : 0 < t.graph.edges.length := List.length_pos.2 (by
                intro hnil
                rw [hnil] at hemem
                exact List.not_mem_nil _ hemem)
              omega
            simp only [List.length_cons]
            omega
          · intro e2 he2
            have hmm := ih3 e2 he2
            rw [hedges] at hmm
            exact List.mem_of_mem_erase hmm

/-- C6: for each cycle handed to it by `cycles()`, `removeCycles` removes
exactly one edge — an outgoing dependency edge of the cycle member whose
out-degree is highest, ties broken in favor of the first-encountered member
(the selected child is `c[h]` for the first index `h` attaining the maximal
out-degree, and the removed edge runs to its successor in the cycle) — and
nothing else is altered: vertices are untouched, and over the whole loop
the surviving edge set is a subset of the original with exactly one edge
gone per processed cycle. -/
theorem c6_removeCycles :
    (∀ (t : LibTree) (c : List V), IsCycleOf t.graph c →
      ∃ h, h < c.length ∧ selChild t c = c.getD h "" ∧
        selParent t c = c.getD (h + 1) (c.headD "") ∧
        (selChild t c, selParent t c) ∈ t.graph.edges ∧
        (∀ v ∈ c, t.graph.outDegree v ≤ t.graph.outDegree (selChild t c)) ∧
        (∀ j < h, t.graph.outDegree (c.getD j "") <
          t.graph.outDegree (selChild t c)) ∧
        t.breakCycle c = (.ok (), { t with graph := { t.graph with
          edges := t.graph.edges.erase (selChild t c, selParent t c) } })) ∧
    (∀ (cs : List (List V)) (t t2 : LibTree),
      LibTree.removeCyclesGo t cs = (.ok (), t2) →
      t2.graph.vertices = t.graph.vertices ∧
        t2.graph.edges.length + cs.length = t.graph.edges.length ∧
        ∀ e ∈ t2.graph.edges, e ∈ t.graph.edges) :=
  ⟨breakCycle_spec, removeCyclesGo_spec⟩

/-- A two-vertex cycle `a ↔ b` for exercising `removeCycles`. -/
def c6t : LibTree :=
  ⟨"/", ⟨[("a", ⟨"a", ["a"], .null, []⟩), ("b", ⟨"b", ["b"], .null, []⟩)],
    [("a", "b"), ("b", "a")]⟩⟩

theorem c6_removeCycles_witness :
    ∃ h, h < (["a", "b"] : List V).length ∧
      selChild c6t ["a", "b"] = (["a", "b"] : List V).getD h "" ∧
      selParent c6t ["a", "b"] = (["a", "b"] : List V).getD (h + 1)
        ((["a", "b"] : List V).headD "") ∧
      (selChild c6t ["a", "b"], selParent c6t ["a", "b"]) ∈ c6t.graph.edges ∧
      (∀ v ∈ (["a", "b"] : List V),
        c6t.graph.outDegree v ≤ c6t.graph.outDegree (selChild c6t ["a", "b"])) ∧
      (∀ j < h, c6t.graph.outDegree ((["a", "b"] : List V).getD j "") <
        c6t.graph.outDegree (selChild c6t ["a", "b"])) ∧
      c6t.breakCycle ["a", "b"] = (.ok (), { c6t with
        graph := { c6t.graph with
          edges := c6t.graph.edges.erase
            (selChild c6t ["a", "b"], selParent c6t ["a", "b"]) } }) :=
  c6_removeCycles.1 c6t ["a", "b"] ⟨by decide, by decide, by decide⟩

/-! ## Claim C1 — getFiles({topological: true}) -/

theorem filterMap_lookup_eq_map_snd {β : Type} :
    ∀ (l : List (V × β)), (l.map Prod.fst).Nodup →
      (l.map Prod.fst).filterMap (fun k => l.lookup k) = l.map Prod.snd := by
  intro l
  induction l with
  | nil => intro _; rfl
  | cons p l ih =>
      rcases p with ⟨k, v⟩
      intro hnd
      simp only [List.map_cons, List.nodup_cons] at hnd
      simp only [List.map_cons, List.filterMap_cons]
      have hk : ((k, v) :: l).lookup k = some v := by
        simp [List.lookup]
      rw [hk]
      show v :: (l.map Prod.fst).filterMap (fun x => ((k, v) :: l).lookup x) =
        v :: l.map Prod.snd
      congr 1
      have hcongr : (l.map Prod.fst).filterMap (fun x => ((k, v) :: l).lookup x) =
          (l.map Prod.fst).filterMap (fun x => l.lookup x) := by
        apply List.filterMap_congr
        intro x hx
        have hxk : (x == k) = false := by
          rw [beq_eq_false_iff_ne]
          intro hEq
          subst hEq
          exact hnd.1 hx
        simp [List.lookup, hxk]
      rw [hcongr]
      exact ih hnd.2

theorem filterMap_get?_of_all_some {β : Type} (f : V → Option β) :
    ∀ (l : List V), (∀ x ∈ l, (f x).isSome) →
      ∀ i, i < l.length → (l.filterMap f).get? i = f (l.getD i "") := by
  intro l
  induction l with
  | nil => intro _ i h; simp at h
  | cons a l ih =>
      intro hall i hi
      rcases hfa : f a with _ | b
      · have := hall a (List.mem_cons_self a l)
        rw [hfa] at this
        exact absurd this (by simp)
      · simp only [List.filterMap_cons, hfa]
        cases i with
        | zero => simp [hfa]
        | succ i =>
            have := ih (fun x hx => hall x (List.mem_cons_of_mem a hx)) i
              (Nat.lt_of_succ_lt_succ hi)
            simpa using this

/-- C1: for every well-formed tree, on an acyclic graph
`getFiles({topological: true})` succeeds: the topological sort lists every
vertex id exactly once (a permutation of the vertex ids), for every
dependency edge `(child, parent)` the child strictly precedes the parent,
and the returned file list — the ids mapped through `getFile` — contains
every stored file exactly once, positionally matching the id order.  If the
graph contains a cycle, the call fails with `CycleDetected` instead of
returning a list with vertices dropped. -/
theorem c1_getFilesTopo (t : LibTree) (hwf : t.graph.WF) :
    (¬ t.graph.HasCycle →
      ∃ ids, Graph.toposortG t.graph = .ok ids ∧
        ids.Perm t.graph.vertexIds ∧
        (∀ c p, (c, p) ∈ t.graph.edges → ids.indexOf c < ids.indexOf p) ∧
        t.getFilesTopo = .ok (ids.filterMap t.getFile) ∧
        (ids.filterMap t.getFile).Perm (t.graph.vertices.map Prod.snd) ∧
        (∀ i, i < ids.length →
          (ids.filterMap t.getFile).get? i = t.getFile (ids.getD i ""))) ∧
    (t.graph.HasCycle → t.getFilesTopo = .error .cycleDetected) := by
  constructor
  · intro hnc
    obtain ⟨ids, hok⟩ := Graph.toposortG_ok_of_acyclic hnc
    have hperm := Graph.toposortG_perm hok
    have hsome : ∀ x ∈ ids, (t.getFile x).isSome := by
      intro x hx
      have hx2 : x ∈ t.graph.vertexIds := hperm.subset hx
      rcases List.mem_map.1 hx2 with ⟨⟨k, f⟩, hmem, rfl⟩
      have : t.graph.vertices.lookup (k, f).1 = some f :=
        (lookup_eq_some_iff hwf.1 _ f).2 hmem
      simp [LibTree.getFile, Graph.vertexValue, this]
    refine ⟨ids, hok, hperm, ?_, ?_, ?_, ?_⟩
    · intro c p hcp
      exact Graph.toposortG_order hwf.1 hok c p hcp (hwf.2.2 _ hcp).1
        (hwf.2.2 _ hcp).2
    · simp only [LibTree.getFilesTopo, hok]
    · have h1 : (ids.filterMap t.getFile).Perm
          ((t.graph.vertexIds).filterMap t.getFile) :=
        List.Perm.filterMap _ hperm
      have h2 : (t.graph.vertexIds).filterMap t.getFile =
          t.graph.vertices.map Prod.snd :=
        filterMap_lookup_eq_map_snd t.graph.vertices hwf.1
      rw [← h2]
      exact h1
    · exact filterMap_get?_of_all_some t.getFile ids hsome
  · intro hc
    have herr := Graph.toposortG_err_of_cycle hwf hc
    simp only [LibTree.getFilesTopo, herr]

/-- A concrete two-file tree with the single dependency `b -> a`
(`b` is a dependency of `a`), used as the C1 witness input. -/
def c1t : LibTree :=
  ⟨"/", ⟨[("a", ⟨"a", ["a.js"], Value.null, []⟩),
          ("b", ⟨"b", ["b.js"], Value.null, []⟩)],
    [("b", "a")]⟩⟩

theorem c1_getFilesTopo_witness :
    (¬ c1t.graph.HasCycle → ∃ ids, Graph.toposortG c1t.graph = .ok ids ∧
        ids.Perm c1t.graph.vertexIds ∧
        (∀ c p, (c, p) ∈ c1t.graph.edges → ids.indexOf c < ids.indexOf p) ∧
        c1t.getFilesTopo = .ok (ids.filterMap c1t.getFile) ∧
        (ids.filterMap c1t.getFile).Perm (c1t.graph.vertices.map Prod.snd) ∧
        (∀ i, i < ids.length →
          (ids.filterMap c1t.getFile).get? i = c1t.getFile (ids.getD i ""))) ∧
    (c1t.graph.HasCycle → c1t.getFilesTopo = .error .cycleDetected) :=
  c1_getFilesTopo c1t ⟨by decide, by decide, by decide⟩

/-! ## Claim C7 — prune idempotence -/

theorem foldl_keep_mem (t : LibTree) (x : V) :
    ∀ (l : List V) (s : Finset V),
      x ∈ l.foldl (fun s a => (s ∪ {a}) ∪ t.graph.reachTo a) s ↔
        x ∈ s ∨ ∃ a ∈ l, x = a ∨ x ∈ t.graph.reachTo a := by
  intro l
  induction l with
  | nil => intro s; simp
  | cons a l ih =>
      intro s
      rw [List.foldl_cons, ih]
      simp only [Finset.mem_union, Finset.mem_singleton, List.mem_cons]
      constructor
      · rintro (((h | h) | h) | ⟨b, hb, h⟩)
        · exact .inl h
        · exact .inr ⟨a, .inl rfl, .inl h⟩
        · exact .inr ⟨a, .inl rfl, .inr h⟩
        · exact .inr ⟨b, .inr hb, h⟩
      · rintro (h | ⟨b, (rfl | hb), h⟩)
        · exact .inl (.inl (.inl h))
        · rcases h with h | h
          · exact .inl (.inl (.inr h))
          · exact .inl (.inr h)
        · exact .inr ⟨b, hb, h⟩

theorem mem_pruneKeep {t : LibTree} {anchors : List V} {x : V} :
    x ∈ t.pruneKeep anchors ↔
      ∃ a ∈ anchors, x = a ∨ t.graph.Reaches x a := by
  rw [LibTree.pruneKeep, foldl_keep_mem]
  simp [Graph.mem_reachTo]

theorem foldl_destroyVertex {α : Type} (l : List V) :
    ∀ g : Graph α,
      (l.foldl Graph.destroyVertex g).vertices =
          g.vertices.filter (fun p => !l.contains p.1) ∧
      (l.foldl Graph.destroyVertex g).edges =
          g.edges.filter (fun e => !l.contains e.1 && !l.contains e.2) := by
  induction l with
  | nil => intro g; constructor <;> simp
  | cons a l ih =>
      intro g
      rw [List.foldl_cons]
      rcases ih (g.destroyVertex a) with ⟨hv, he⟩
      constructor
      · rw [hv]
        show (g.vertices.filter fun p => p.1 != a).filter _ = _
        rw [List.filter_filter]
        apply List.filter_congr
        intro p _
        simp only [List.contains_cons, Bool.not_or, bne]
        exact Bool.and_comm _ _
      · rw [he]
        show (g.edges.filter fun e => e.1 != a && e.2 != a).filter _ = _
        rw [List.filter_filter]
        apply List.filter_congr
        intro e _
        simp only [List.contains_cons, Bool.not_or, bne]
        cases e.1 == a <;> cases l.contains e.1 <;>
          cases e.2 == a <;> cases l.contains e.2 <;> rfl

/-- C7: pruning is idempotent — for every well-formed tree, if
`prune(anchors)` succeeds and yields the pruned tree, running
`prune(anchors)` again on the result succeeds and removes nothing: the
second call returns the pruned tree itself, vertex set and edge set
unchanged. -/
theorem c7_prune_idempotent (t : LibTree) (anchors : List V) (t1 : LibTree)
    (hwf : t.graph.WF) (h : t.prune anchors = .ok t1) :
    t1.prune anchors = .ok t1 := by
  rw [LibTree.prune] at h
  split_ifs at h with hall
  · rcases hord : Graph.toposortG t.graph with e | order
    · rw [hord] at h
      have h2 : (Except.error e : Except GErr LibTree) = .ok t1 := h
      exact absurd h2 (by simp)
    · rw [hord] at h
      have h2 : Except.ok
          { t with graph :=
            ((order.filter fun v => decide (v ∉ t.pruneKeep anchors)).foldl
              Graph.destroyVertex t.graph) } = Except.ok t1 := h
      have ht1 : t1 =
          { t with graph :=
            ((order.filter fun v => decide (v ∉ t.pruneKeep anchors)).foldl
              Graph.destroyVertex t.graph) } := by
        injection h2 with h3
        exact h3.symm
      set K := t.pruneKeep anchors with hK
      set del := order.filter fun v => decide (v ∉ K) with hdel
      have hperm : order.Perm t.graph.vertexIds := Graph.toposortG_perm hord
      obtain ⟨hvz, hez⟩ := foldl_destroyVertex del t.graph
      have hg1v : t1.graph.vertices =
          t.graph.vertices.filter (fun p => !del.contains p.1) := by
        rw [ht1]; exact hvz
      have hg1e : t1.graph.edges =
          t.graph.edges.filter
            (fun e => !del.contains e.1 && !del.contains e.2) := by
        rw [ht1]; exact hez
      have hnotdel : ∀ x, x ∈ K → x ∉ del := by
        intro x hx hxdel
        rw [hdel, List.mem_filter] at hxdel
        exact (of_decide_eq_true hxdel.2) hx
      have hkeep : ∀ x, x ∈ t1.graph.vertexIds → x ∈ K := by
        intro x hx
        rcases List.mem_map.1 hx with ⟨p, hp, rfl⟩
        rw [hg1v, List.mem_filter] at hp
        by_contra hxk
        have hxdel : p.1 ∈ del := by
          rw [hdel, List.mem_filter]
          refine ⟨hperm.mem_iff.2 ?_, decide_eq_true hxk⟩
          exact List.mem_map.2 ⟨p, hp.1, rfl⟩
        have : del.contains p.1 = true := by simpa using hxdel
        rw [this] at hp
        exact absurd hp.2 (by simp)
      have hedge1 : ∀ x y, t.graph.Edge x y → x ∈ K → y ∈ K →
          t1.graph.Edge x y := by
        intro x y hxy hx hy
        rw [Graph.Edge, hg1e, List.mem_filter]
        refine ⟨hxy, ?_⟩
        simp [hnotdel x hx, hnotdel y hy]
      have hanchorK : ∀ a ∈ anchors, a ∈ K := by
        intro a ha
        exact mem_pruneKeep.2 ⟨a, ha, .inl rfl⟩
      have hreach : ∀ x anc, anc ∈ anchors → t.graph.Reaches x anc →
          t1.graph.Reaches x anc := by
        intro x anc ha hr
        have hr2 : Relation.TransGen t.graph.Edge x anc := hr
        clear hr
        induction hr2 using Relation.TransGen.head_induction_on with
        | base hxy =>
            rename_i z
            have hz : z ∈ K :=
              mem_pruneKeep.2 ⟨anc, ha, .inr (Relation.TransGen.single hxy)⟩
            exact Relation.TransGen.single
              (hedge1 z anc hxy hz (hanchorK anc ha))
        | ih hxy hr3 ih3 =>
            rename_i z w
            have hz : z ∈ K :=
              mem_pruneKeep.2
                ⟨anc, ha, .inr (Relation.TransGen.head hxy hr3)⟩
            have hw : w ∈ K := mem_pruneKeep.2 ⟨anc, ha, .inr hr3⟩
            exact Relation.TransGen.head (hedge1 z w hxy hz hw) ih3
      have hKK1 : ∀ x, x ∈ K → x ∈ t1.pruneKeep anchors := by
        intro x hx
        rcases mem_pruneKeep.1 hx with ⟨a, ha, rfl | hr⟩
        · exact mem_pruneKeep.2 ⟨x, ha, .inl rfl⟩
        · exact mem_pruneKeep.2 ⟨a, ha, .inr (hreach x a ha hr)⟩
      have hnc : ¬ t.graph.HasCycle := by
        intro hc
        rw [Graph.toposortG_err_of_cycle hwf hc] at hord
        exact absurd hord (by simp)
      have hnc1 : ¬ t1.graph.HasCycle := by
        rintro ⟨v, hv⟩
        refine hnc ⟨v, Relation.TransGen.mono ?_ hv⟩
        intro x y hxy
        rw [Graph.Edge, hg1e, List.mem_filter] at hxy
        exact hxy.1
      have hall1 : anchors.all t1.hasFile = true := by
        rw [List.all_eq_true]
        intro a ha
        have haf : t.hasFile a = true := (List.all_eq_true.1 hall) a ha
        have hav : a ∈ t.graph.vertexIds := by
          simpa [LibTree.hasFile, Graph.hasVertex] using haf
        rcases List.mem_map.1 hav with ⟨p, hp, rfl⟩
        have hsurv : p ∈ t1.graph.vertices := by
          rw [hg1v, List.mem_filter]
          refine ⟨hp, ?_⟩
          simp [hnotdel p.1 (hanchorK p.1 ha)]
        simp only [LibTree.hasFile, Graph.hasVertex]
        have : p.1 ∈ t1.graph.vertexIds :=
          List.mem_map.2 ⟨p, hsurv, rfl⟩
        simpa using this
      rw [LibTree.prune, if_pos hall1]
      obtain ⟨order2, hord2⟩ := Graph.toposortG_ok_of_acyclic hnc1
      rw [hord2]
      have hfilter :
          order2.filter (fun v => decide (v ∉ t1.pruneKeep anchors)) = [] := by
        rw [List.filter_eq_nil_iff]
        intro v hv
        have hvk : v ∈ t1.pruneKeep anchors :=
          hKK1 v (hkeep v ((Graph.toposortG_perm hord2).mem_iff.1 hv))
        simp [hvk]
      show Except.ok
          { t1 with graph :=
            ((order2.filter fun v => decide (v ∉ t1.pruneKeep anchors)).foldl
              Graph.destroyVertex t1.graph) } = Except.ok t1
      rw [hfilter]
      rfl

/-- Concrete three-file tree for the C7 witness: `b -> a` with an
unreachable `c`, pruned against anchor `a`. -/
def c7t : LibTree :=
  ⟨"/", ⟨[("a", ⟨"a", ["a.js"], Value.null, []⟩),
          ("b", ⟨"b", ["b.js"], Value.null, []⟩),
          ("c", ⟨"c", ["c.js"], Value.null, []⟩)],
    [("b", "a")]⟩⟩

/-- The result of pruning `c7t` against `["a"]`: the unreachable `c` is
gone. -/
def c7t1 : LibTree :=
  ⟨"/", ⟨[("a", ⟨"a", ["a.js"], Value.null, []⟩),
          ("b", ⟨"b", ["b.js"], Value.null, []⟩)],
    [("b", "a")]⟩⟩

theorem c7_prune_idempotent_witness : c7t1.prune ["a"] = .ok c7t1 :=
  c7_prune_idempotent c7t ["a"] c7t1 ⟨by decide, by decide, by decide⟩
    (by rfl)

/-! ## Claim C2 — toString / fromString round trip -/

theorem reviveList_strs (l : List String)
    (h : ∀ p ∈ l, (parseIsoDate p).isNone = true) :
    reviveList (l.map Json.str) = l.map Value.str := by
  induction l with
  | nil => rfl
  | cons s l ih =>
      have hs : parseIsoDate s = none :=
        Option.isNone_iff_eq_none.1 (h s (List.mem_cons_self s l))
      simp only [List.map_cons, reviveList, revive, hs]
      rw [ih (fun p hp => h p (List.mem_cons_of_mem s hp))]

theorem filterMap_strs (l : List String) :
    (l.map Value.str).filterMap
      (fun v => match v with | Value.str s => some s | _ => none) = l := by
  induction l with
  | nil => rfl
  | cons s l ih =>
      simp only [List.map_cons, List.filterMap_cons]
      rw [ih]

theorem getField_none_of_all (k : String) :
    ∀ fs : List (String × Value), (∀ p ∈ fs, ¬ p.1 = k) →
      getField fs k = none := by
  intro fs
  induction fs with
  | nil => intro _; rfl
  | cons p fs ih =>
      rcases p with ⟨k2, v⟩
      intro h
      simp only [getField]
      rw [if_neg (h (k2, v) (List.mem_cons_self _ _))]
      exact ih (fun q hq => h q (List.mem_cons_of_mem _ hq))

/-- A clean file decodes from its encoding unchanged. -/
theorem decodeFile_encodeFile (f : LibFile)
    (hcl : LibTree.cleanFileB f = true) :
    LibTree.decodeFile (LibTree.encodeFile f) = f := by
  rw [LibTree.cleanFileB] at hcl
  simp only [Bool.and_eq_true] at hcl
  obtain ⟨⟨⟨⟨⟨hid, hhist⟩, hcont⟩, hfields⟩, htype⟩, hkeys⟩ := hcl
  have hid' : parseIsoDate f.id = none := Option.isNone_iff_eq_none.1 hid
  have hkey : ∀ p ∈ f.fields, (p.1 == "id") = false ∧
      (p.1 == "history") = false ∧ (p.1 == "_contents") = false ∧
      (p.1 == "type") = false := by
    intro p hp
    have h2 := (List.all_eq_true.1 hkeys) p hp
    simp only [Bool.not_or, Bool.and_eq_true, Bool.not_eq_true'] at h2
    exact ⟨h2.1.1.1, h2.1.1.2, h2.1.2, h2.2⟩
  have h1 : reviveObj (("id", Json.str f.id)
      :: ("history", Json.arr (f.history.map Json.str))
      :: ("_contents", encode f.contents) :: encodeObj f.fields) =
      ("id", Value.str f.id)
        :: ("history", Value.arr (f.history.map Value.str))
        :: ("_contents", f.contents) :: f.fields := by
    simp only [reviveObj, revive, hid']
    rw [reviveList_strs f.history (fun p hp => (List.all_eq_true.1 hhist) p hp),
      revive_encode f.contents hcont, reviveObj_encodeObj f.fields hfields]
  have hgt : getField (("id", Value.str f.id)
      :: ("history", Value.arr (f.history.map Value.str))
      :: ("_contents", f.contents) :: f.fields) "type" = none := by
    simp only [getField]
    rw [if_neg (by decide), if_neg (by decide), if_neg (by decide)]
    exact getField_none_of_all "type" f.fields
      (fun p hp hEq => by
        have h3 := (hkey p hp).2.2.2
        rw [hEq] at h3
        simp at h3)
  have hrfs : revive (LibTree.encodeFile f) = Value.obj
      (("id", Value.str f.id)
        :: ("history", Value.arr (f.history.map Value.str))
        :: ("_contents", f.contents) :: f.fields) := by
    rw [LibTree.encodeFile]
    simp only [revive]
    rw [h1, hgt]
  simp only [LibTree.decodeFile, hrfs]
  show ({ id := f.id,
          history := (f.history.map Value.str).filterMap
            (fun v => match v with | Value.str s => some s | _ => none),
          contents := f.contents,
          fields := f.fields.filter
            (fun p => !(p.1 == "id" || p.1 == "history" ||
              p.1 == "_contents")) } : LibFile) = f
  rw [filterMap_strs]
  have hff : f.fields.filter
      (fun p => !(p.1 == "id" || p.1 == "history" || p.1 == "_contents")) =
      f.fields := by
    rw [List.filter_eq_self]
    intro p hp
    rcases hkey p hp with ⟨k1, k2, k3, _⟩
    simp [k1, k2, k3]
  rw [hff]

theorem except_bind_ok {α β : Type} (x : α) (k : α → Except GErr β) :
    (Except.ok x >>= k) = k x := rfl

/-- Rebuilding the vertices with `addNewVertex` succeeds on duplicate-free
ids and appends the file list as vertex pairs. -/
theorem foldlM_addNewVertex (fs : List LibFile) :
    ∀ g : Graph LibFile,
      (g.vertexIds ++ fs.map LibFile.id).Nodup →
      fs.foldlM (fun g f => g.addNewVertex f.id f) g =
        .ok ⟨g.vertices ++ fs.map (fun f => (f.id, f)), g.edges⟩ := by
  induction fs with
  | nil =>
      intro g _
      simp only [List.foldlM_nil, List.map_nil, List.append_nil]
      rfl
  | cons f fs ih =>
      intro g hnd
      rcases List.nodup_append.1 hnd with ⟨hnd1, hnd2, hdisj⟩
      simp only [List.foldlM_cons]
      have hnv : g.addNewVertex f.id f =
          .ok { g with vertices := g.vertices ++ [(f.id, f)] } := by
        rw [Graph.addNewVertex, if_neg]
        intro hv
        have hmem : f.id ∈ g.vertexIds := by
          simpa [Graph.hasVertex] using hv
        exact hdisj hmem (by simp)
      rw [hnv, except_bind_ok]
      have hvid : Graph.vertexIds
          { g with vertices := g.vertices ++ [(f.id, f)] } =
          g.vertexIds ++ [f.id] := by
        simp only [Graph.vertexIds, List.map_append, List.map_cons,
          List.map_nil]
      have hnd' : (Graph.vertexIds
          { g with vertices := g.vertices ++ [(f.id, f)] } ++
            fs.map LibFile.id).Nodup := by
        rw [hvid, ← List.append_cons]
        exact hnd
      rw [ih _ hnd']
      simp only [List.map_cons]
      rw [← List.append_cons]

/-- Rebuilding the edges with `addNewEdge` succeeds when every endpoint
exists and no edge repeats, and appends the dependency list verbatim. -/
theorem foldlM_addEdge (es : List (V × V)) :
    ∀ g : Graph LibFile,
      (∀ e ∈ es, e.1 ∈ g.vertexIds ∧ e.2 ∈ g.vertexIds) →
      (g.edges ++ es).Nodup →
      es.foldlM (fun g e => g.addEdge e.1 e.2) g =
        .ok ⟨g.vertices, g.edges ++ es⟩ := by
  induction es with
  | nil =>
      intro g _ _
      simp only [List.foldlM_nil, List.append_nil]
      rfl
  | cons e es ih =>
      intro g hep hnd
      rcases List.nodup_append.1 hnd with ⟨hnd1, hnd2, hdisj⟩
      simp only [List.foldlM_cons]
      have hv := hep e (List.mem_cons_self _ _)
      have hv1 : g.hasVertex e.1 = true := by
        simpa [Graph.hasVertex] using hv.1
      have hv2 : g.hasVertex e.2 = true := by
        simpa [Graph.hasVertex] using hv.2
      have hne : g.hasEdge e.1 e.2 = false := by
        rcases hc : g.hasEdge e.1 e.2 with _ | _
        · rfl
        · exfalso
          have hmem : (e.1, e.2) ∈ g.edges := by
            simpa [Graph.hasEdge] using hc
          exact hdisj hmem (List.mem_cons_self e es)
      have hae : g.addEdge e.1 e.2 =
          .ok { g with edges := g.edges ++ [(e.1, e.2)] } := by
        rw [Graph.addEdge, if_pos (by rw [hv1, hv2]; rfl),
          if_neg (by rw [hne]; simp)]
      rw [hae, except_bind_ok]
      have hep' : ∀ e2 ∈ es, e2.1 ∈ Graph.vertexIds
          { g with edges := g.edges ++ [(e.1, e.2)] } ∧
          e2.2 ∈ Graph.vertexIds
            { g with edges := g.edges ++ [(e.1, e.2)] } :=
        fun e2 he2 => hep e2 (List.mem_cons_of_mem _ he2)
      have hnd' : (Graph.edges
          { g with edges := g.edges ++ [(e.1, e.2)] } ++ es).Nodup := by
        show ((g.edges ++ [(e.1, e.2)]) ++ es).Nodup
        rw [← List.append_cons]
        exact hnd
      rw [ih _ hep' hnd']
      rw [← List.append_cons]

/-- A file whose custom field holds an ISO-timestamp-shaped string. -/
def c2f : LibFile :=
  ⟨"f", ["f.js"], Value.null,
    [("note", Value.str "2020-05-06T07:08:09.010Z")]⟩

/-- C2 counterexample: the reviver of `fromString` turns any string field
shaped like an ISO timestamp into a `Date`, so the round trip is not
field-for-field identity on such files. -/
theorem c2_counterexample :
    (LibTree.decodeFile (LibTree.encodeFile c2f)).fields =
      [("note", Value.date 2020 5 6 7 8 9 10)] ∧
    c2f.fields = [("note", Value.str "2020-05-06T07:08:09.010Z")] ∧
    Value.date 2020 5 6 7 8 9 10 ≠
      Value.str "2020-05-06T07:08:09.010Z" :=
  ⟨rfl, rfl, by simp⟩

/-- C2 (amended): for every well-formed tree whose files are clean — no
string value shaped like an ISO timestamp, no plain object field carrying
`type = "Buffer"`, and no custom field named `id`, `history`, `_contents`
or `type` — `fromString(tree.toString())` rebuilds the tree exactly: same
root, same vertex ids in order, file nodes equal field for field (buffers
and dates restored losslessly), and the same edge list. -/
theorem c2_fromString_toString (t : LibTree) (hwf : t.TWF)
    (hclean : ∀ p ∈ t.graph.vertices, LibTree.cleanFileB p.2 = true) :
    LibTree.fromStringModel (LibTree.toJSONModel t) = .ok t := by
  obtain ⟨⟨hnodv, hnode, hends⟩, hids⟩ := hwf
  have hdec : (t.getFiles.map LibTree.encodeFile).map LibTree.decodeFile =
      t.getFiles := by
    rw [List.map_map]
    have hc : ∀ f ∈ t.getFiles,
        (LibTree.decodeFile ∘ LibTree.encodeFile) f = id f := by
      intro f hf
      rcases List.mem_map.1 hf with ⟨p, hp, rfl⟩
      exact decodeFile_encodeFile p.2 (hclean p hp)
    rw [List.map_congr_left hc, List.map_id]
  have hmapid : t.getFiles.map (fun f => (f.id, f)) = t.graph.vertices := by
    rw [LibTree.getFiles, List.map_map]
    have hc : ∀ p ∈ t.graph.vertices,
        ((fun f => (f.id, f)) ∘ Prod.snd) p = id p := by
      intro p hp
      rcases p with ⟨k, f⟩
      have h2 := hids (k, f) hp
      simp only [Function.comp_apply, id_eq]
      simp only at h2
      rw [h2]
    rw [List.map_congr_left hc, List.map_id]
  have hidsmap : t.getFiles.map LibFile.id = t.graph.vertexIds := by
    rw [LibTree.getFiles, List.map_map, Graph.vertexIds]
    apply List.map_congr_left
    intro p hp
    exact hids p hp
  have hv := foldlM_addNewVertex t.getFiles Graph.empty
    (by
      show (([] : List (V × LibFile)).map Prod.fst ++
        t.getFiles.map LibFile.id).Nodup
      rw [List.map_nil, List.nil_append, hidsmap]
      exact hnodv)
  have hv' : t.getFiles.foldlM (fun g f => g.addNewVertex f.id f)
      Graph.empty = .ok (⟨t.graph.vertices, []⟩ : Graph LibFile) := by
    rw [hv]
    show Except.ok (⟨[] ++ t.getFiles.map (fun f => (f.id, f)), []⟩ :
      Graph LibFile) = _
    rw [List.nil_append, hmapid]
  have he := foldlM_addEdge t.graph.edges
    (⟨t.graph.vertices, []⟩ : Graph LibFile)
    (fun e hmem => hends e hmem)
    (by
      show (([] : List (V × V)) ++ t.graph.edges).Nodup
      rw [List.nil_append]
      exact hnode)
  simp only [LibTree.fromStringModel, LibTree.toJSONModel]
  rw [hdec, hv', except_bind_ok, he, except_bind_ok]
  show Except.ok (⟨t.root,
    ⟨t.graph.vertices, [] ++ t.graph.edges⟩⟩ : LibTree) = .ok t
  rw [List.nil_append]

/-- Concrete clean tree for the C2 witness: a buffer-valued file with a
date field depending on a second file. -/
def c2t : LibTree :=
  ⟨"/", ⟨[("a", ⟨"a", ["a.js"], Value.buf [1, 2, 255],
            [("when", Value.date 2020 5 6 7 8 9 10)]⟩),
          ("b", ⟨"b", ["b.js"], Value.null, []⟩)],
    [("b", "a")]⟩⟩

theorem c2_fromString_toString_witness :
    LibTree.fromStringModel (LibTree.toJSONModel c2t) = .ok c2t :=
  c2_fromString_toString c2t ⟨⟨by decide, by decide, by decide⟩, by decide⟩
    (by decide)
